import Mathlib

/-!
# A shallow embedding of the Dijkstra introduction repository

This file embeds `src/graph.ts` and `src/index.ts` of the repository in
Lean and proves properties of the embedding.

Modelling conventions:

* JS object references to graph nodes are modelled as indices into the
  graph's node list; the JS identity test `===` on two node references
  becomes equality of indices.
* JS numeric edge weights are modelled as integers (`ℤ`); every scenario
  in the specification uses integer weights, on which JS float arithmetic
  is exact.  The `NaN` produced by `Number(...)` on a non-numeric weight
  payload is modelled by a dedicated payload constructor; infinite parse
  results are outside the model.
* Distance-table values start at JS `Infinity`, modelled by `⊤` in
  `WithTop ℤ`: `Infinity + w = Infinity` and `x < Infinity` for finite
  `x`, `Infinity < Infinity` is false, matching JS arithmetic on the
  values the algorithm produces.
* Fallible code returns `Except Err`; each `throw new Error(...)` site of
  the source has its own `Err` constructor, and the `TypeError` raised by
  dereferencing `null`/`undefined` is `Err.nullDereference`.
* The two unbounded loops of the source (the main `while` loop, which the
  source bounds by the captured node count, and the path rewind loop,
  which the source does not bound at all) take explicit fuel;
  `Err.fuelExhausted` marks exhaustion of the fuel and never occurs on
  runs the source completes.
-/

/-- graph.ts lines 17–20: `EdgeToNode`, one adjacency record.
`targetNode` is an object reference in the source, here the index of the
target node in the graph's node list. -/
structure EdgeToNode where
  targetNode : Nat
  weight : ℤ
deriving DecidableEq, Repr

/-- graph.ts lines 22–42: `GraphNode`, a named node owning its adjacency
list. -/
structure GraphNode where
  name : String
  edgesToNodes : List EdgeToNode
deriving DecidableEq, Repr

/-- graph.ts lines 1–15: `Graph`, an ordered collection of nodes. -/
structure Graph where
  graphNodes : List GraphNode
deriving DecidableEq, Repr

/-- index.ts line 44: the result of `Number(data.val)` on an edge's
weight payload — a finite number, or `NaN` for non-numeric text. -/
inductive WeightPayload where
  | num (q : ℤ)
  | nan
deriving DecidableEq, Repr

/-- One `edge` element of the parsed document: the `source` and `target`
attributes (`none` when the attribute is absent) and the optional `data`
child element, already passed through `Number(...)`. -/
structure EdgeRecord where
  source : Option String
  target : Option String
  data : Option WeightPayload
deriving DecidableEq, Repr

/-- The content of the `graph` element of the GraphML document: the `id`
attributes of its `node` children and its `edge` children, in document
order.  The XML parsing itself is the external collaborator of the spec;
index.ts line 15 (`no graph tag`) is the case where this document cannot
be produced at all, which the model takes as given. -/
structure GraphMlDoc where
  nodes : List String
  edges : List EdgeRecord
deriving DecidableEq, Repr

/-- The failure modes of index.ts: one constructor per
`throw new Error(...)` message, plus the `TypeError` a `null`/`undefined`
dereference raises, plus the fuel-exhaustion marker of the model. -/
inductive Err where
  /-- "There must be at least two node tags in the GraphML file." (line 23) -/
  | atLeastTwoNodes
  /-- "There must be at least one edge tag in the GraphML file." (line 32) -/
  | atLeastOneEdge
  /-- "The edge tag has either no source or target attribute..." (line 38) -/
  | edgeNoSourceOrTarget
  /-- "The current edge tag has no children tag named data..." (line 42) -/
  | noDataTag
  /-- "The weight of the current edge is not a valid number." (line 46) -/
  | invalidWeight
  /-- "The node specified in the edge tag is not present..." (line 52) -/
  | nodeNotPresent
  /-- "Either the start node or the target node is not represented in the
  given graph" (line 132) -/
  | nodeNotInGraph
  /-- "The filtered lookup table does not contain any elements." (line 88) -/
  | emptyFilteredLookupTable
  /-- "The graph does not contain either the start node or the target
  node." (line 169) -/
  | graphDoesNotContain
  /-- `TypeError` from reading a property of `null`/`undefined` (in
  particular line 152's `nodeToCheck.getName()` when the predecessor walk
  reaches a node whose predecessor was never set). -/
  | nullDereference
  /-- Modelling artifact: fuel for a source loop ran out. -/
  | fuelExhausted
deriving DecidableEq, Repr

/-- JS truthiness of an optional string attribute: `undefined` and the
empty string are falsy (index.ts line 37 `!sourceNodeName || !targetNodeName`). -/
def strFalsy : Option String → Bool
  | none => true
  | some s => s = ""

/-- `GraphNode.addAdjacentWeightedNode` applied to the node object at
index `i` of the list: push one adjacency record onto that node's list. -/
def pushEdgeAt : List GraphNode → Nat → EdgeToNode → List GraphNode
  | [], _, _ => []
  | nd :: rest, 0, e => { nd with edgesToNodes := nd.edgesToNodes ++ [e] } :: rest
  | nd :: rest, i + 1, e => nd :: pushEdgeAt rest i e

/-- The body of the per-edge forEach of `parseGraphMl` (index.ts
lines 34–62): source/target attribute check (line 37), `data` child
check (line 41), weight truthiness — `NaN` and `0` are the falsy numbers
at line 45 —, endpoint resolution by first name match (lines 49–53), and
reciprocal adjacency insertion (lines 54–61). -/
def addEdgeRecord (er : EdgeRecord) (g : Graph) : Except Err Graph :=
  if strFalsy er.source ∨ strFalsy er.target then .error .edgeNoSourceOrTarget else
  match er.data with
  | none => .error .noDataTag
  | some .nan => .error .invalidWeight
  | some (.num q) =>
    if q = 0 then .error .invalidWeight else
    let sName := er.source.getD ""
    let tName := er.target.getD ""
    match g.graphNodes.findIdx? (fun nd => nd.name == sName),
          g.graphNodes.findIdx? (fun nd => nd.name == tName) with
    | some si, some ti =>
      .ok ⟨pushEdgeAt (pushEdgeAt g.graphNodes si ⟨ti, q⟩) ti ⟨si, q⟩⟩
    | _, _ => .error .nodeNotPresent

/-- index.ts lines 7–64, `parseGraphMl`, starting from the parsed
document.  Validation order follows the source: node count (line 22),
node insertion (lines 25–27, with no duplicate check), edge count
(line 31), then the per-edge processing of `addEdgeRecord`; a throw
aborts the whole load (the error propagates through the fold). -/
def parseGraphMl (doc : GraphMlDoc) : Except Err Graph :=
  if doc.nodes.length < 2 then .error .atLeastTwoNodes else
  let g0 : Graph := ⟨doc.nodes.map fun id => ⟨id, []⟩⟩
  if doc.edges.length = 0 then .error .atLeastOneEdge else
  doc.edges.foldl (fun acc er => acc.bind (addEdgeRecord er)) (.ok g0)

/-- index.ts lines 66–70: `LookupTableEntry`.  `node` is the node object
reference (here its index), the distance starts at `Infinity` (`⊤`). -/
structure LookupTableEntry where
  node : Nat
  shortestDistanceToTargetNode : WithTop ℤ
  previousNode : Option Nat
deriving DecidableEq, Repr

/-- index.ts lines 72–83: `initLookupTable`, one entry per graph node in
graph order, distance `0` for the start node and `Infinity` otherwise,
no predecessor. -/
def initLookupTable (g : Graph) (startNode : Nat) : List LookupTableEntry :=
  (List.range g.graphNodes.length).map fun i =>
    ⟨i, if i = startNode then 0 else ⊤, none⟩

/-- index.ts lines 100–103: `getTableEntryforNode`,
`Array.prototype.find` on the table (first entry whose node reference
matches). -/
def getTableEntryforNode (lookupTable : List LookupTableEntry) (graphNode : Nat) :
    Option LookupTableEntry :=
  lookupTable.find? (fun e => e.node == graphNode)

/-- index.ts lines 85–97: `findNodeWithSmallestKnownDistance`.  The
table is filtered to the unvisited nodes (filter preserves table order),
the scan keeps the first entry whose distance is strictly smaller than
the best so far — i.e. the first minimum in filtered order — and the
final `unvisited.find` recovers the node reference (its `as GraphNode`
cast of a missed find would poison the caller; the miss is provably
impossible, modelled as `nullDereference`). -/
def findNodeWithSmallestKnownDistance (lookupTable : List LookupTableEntry)
    (unvisited : List Nat) : Except Err Nat :=
  match lookupTable.filter (fun e => unvisited.contains e.node) with
  | [] => .error .emptyFilteredLookupTable
  | h :: t =>
    let smallest := t.foldl
      (fun best e =>
        if e.shortestDistanceToTargetNode < best.shortestDistanceToTargetNode then e
        else best) h
    match unvisited.find? (fun x => x == smallest.node) with
    | some u => .ok u
    | none => .error .nullDereference

/-- Overwrite distance and predecessor of the first table entry for node
`v` — the in-place mutation of the entry object found at index.ts
lines 111–112. -/
def updateFirstEntry : List LookupTableEntry → Nat → WithTop ℤ → Nat →
    List LookupTableEntry
  | [], _, _, _ => []
  | e :: rest, v, d, p =>
    if e.node = v then ⟨e.node, d, some p⟩ :: rest
    else e :: updateFirstEntry rest v d p

/-- The body of the relaxation forEach (index.ts lines 107–114) for one
adjacency record `e` of `graphNode`.  `nodeTableEntry` is an alias of
the live table entry in the source, so the current node's distance is
re-read from the (possibly updated) table at every edge — observable
only for self-loops; the `as LookupTableEntry` cast of a missing entry
crashes on the subsequent property read, modelled as `nullDereference`. -/
def relaxStep (graphNode : Nat) (e : EdgeToNode) (t : List LookupTableEntry) :
    Except Err (List LookupTableEntry) :=
  match getTableEntryforNode t graphNode, getTableEntryforNode t e.targetNode with
  | some ue, some ve =>
    let newDistance := ue.shortestDistanceToTargetNode + (e.weight : WithTop ℤ)
    if newDistance < ve.shortestDistanceToTargetNode then
      .ok (updateFirstEntry t e.targetNode newDistance graphNode)
    else
      .ok t
  | _, _ => .error .nullDereference

/-- index.ts lines 105–115: `checkNeighboringNodes`, relaxation of every
adjacency record of `graphNode` (whose adjacency list is `edges`). -/
def checkNeighboringNodes (lookupTable : List LookupTableEntry) (graphNode : Nat)
    (edges : List EdgeToNode) : Except Err (List LookupTableEntry) :=
  edges.foldl (fun acc e => acc.bind (relaxStep graphNode e)) (.ok lookupTable)

/-- index.ts line 145: `unvisited.splice(unvisited.indexOf(nextNode), 1)`.
When the node is present this removes its first occurrence; when it is
absent `indexOf` returns `-1` and `splice(-1, 1)` removes the last
element. -/
def spliceOutNode (unvisited : List Nat) (u : Nat) : List Nat :=
  if u ∈ unvisited then unvisited.erase u else unvisited.dropLast

/-- index.ts lines 140–146: the main `while (visited.length < graphNodesLength)`
loop.  `n` is the length captured at line 129 before the loop starts
mutating the list, and `fuel` bounds the iteration count (each iteration
pushes exactly one node onto `visited`, so `n` iterations always
suffice). -/
def dijkstraLoop (g : Graph) (n : Nat) :
    Nat → List LookupTableEntry → List Nat → List Nat →
    Except Err (List LookupTableEntry × List Nat × List Nat)
  | 0, lookupTable, unvisited, visited =>
    if visited.length < n then .error .fuelExhausted
    else .ok (lookupTable, unvisited, visited)
  | fuel + 1, lookupTable, unvisited, visited =>
    if visited.length < n then do
      let u ← findNodeWithSmallestKnownDistance lookupTable unvisited
      match g.graphNodes[u]? with
      | none => throw .nullDereference
      | some nd => do
        let lookupTable' ← checkNeighboringNodes lookupTable u nd.edgesToNodes
        dijkstraLoop g n fuel lookupTable' (spliceOutNode unvisited u) (visited ++ [u])
    else .ok (lookupTable, unvisited, visited)

/-- index.ts lines 149–155: the path rewind loop
`while (nodeToCheck !== startNode)`.  It walks predecessor references
from the target, pushing node names; a `none` reference for a non-start
node (the predecessor of the target was never set) crashes with a
`TypeError` at `nodeToCheck.getName()` — the source has no
unreachable-target check.  The source loop has no intrinsic bound, so the
model takes fuel. -/
def rewindPath (g : Graph) (lookupTable : List LookupTableEntry) (startNode : Nat) :
    Nat → Option Nat → List String → Except Err (List String)
  | 0, _, _ => .error .fuelExhausted
  | fuel + 1, nodeToCheck, pathNames =>
    match nodeToCheck with
    | none => .error .nullDereference
    | some v =>
      if v = startNode then .ok pathNames
      else
        match g.graphNodes[v]?, getTableEntryforNode lookupTable v with
        | some nd, some entry =>
          rewindPath g lookupTable startNode fuel entry.previousNode
            (pathNames ++ [nd.name])
        | _, _ => .error .nullDereference

/-- index.ts lines 122–125: the query result. -/
structure ShortestPath where
  nodeNames : List String
  shortestDistance : WithTop ℤ
deriving DecidableEq, Repr

/-- index.ts lines 127–163: `findShortestPathBetween`.  Line 137 binds
`unvisited` to the graph's own node array — despite the comment, no copy
is made — so the splices of the main loop also empty the graph's node
list; the model therefore returns the post-state graph (whose node list
is the final `unvisited`, each index resolved back to its node object)
alongside the result. -/
def findShortestPathBetween (g : Graph) (startNode targetNode : Nat) :
    Except Err (ShortestPath × Graph) :=
  let n := g.graphNodes.length
  if startNode < n ∧ targetNode < n then do
    let lookupTable := initLookupTable g startNode
    let (table', unvisited', _visited') ←
      dijkstraLoop g n (n + 1) lookupTable (List.range n) []
    let names ← rewindPath g table' startNode (n + 1) (some targetNode) []
    match g.graphNodes[startNode]?, getTableEntryforNode table' targetNode with
    | some snd, some targetEntry =>
      .ok (⟨(names ++ [snd.name]).reverse, targetEntry.shortestDistanceToTargetNode⟩,
           ⟨unvisited'.filterMap (fun i => g.graphNodes[i]?)⟩)
    | _, _ => throw .nullDereference
  else .error .nodeNotInGraph

/-- index.ts lines 165–172: `dijkstra`, resolution of the two node names
(first match in the node list) followed by `findShortestPathBetween`.
Like `findShortestPathBetween` the model returns the post-state graph. -/
def dijkstra (g : Graph) (startNodeName targetNodeName : String) :
    Except Err (ShortestPath × Graph) :=
  match g.graphNodes.findIdx? (fun nd => nd.name == startNodeName),
        g.graphNodes.findIdx? (fun nd => nd.name == targetNodeName) with
  | some s, some t => findShortestPathBetween g s t
  | _, _ => .error .graphDoesNotContain

/-! ## Concrete documents and graphs used by the claims -/

/-- A well-formed edge record. -/
def mkEdgeRecord (s t : String) (q : ℤ) : EdgeRecord :=
  ⟨some s, some t, some (.num q)⟩

/-- Scenario 1 of the spec: nodes {A,B,C,D,E}; edges A-B(4), A-C(2),
C-B(1), B-D(5), C-D(8), D-E(3), B-E(10). -/
def doc8 : GraphMlDoc :=
  ⟨["A", "B", "C", "D", "E"],
   [mkEdgeRecord "A" "B" 4, mkEdgeRecord "A" "C" 2, mkEdgeRecord "C" "B" 1,
    mkEdgeRecord "B" "D" 5, mkEdgeRecord "C" "D" 8, mkEdgeRecord "D" "E" 3,
    mkEdgeRecord "B" "E" 10]⟩

/-- The graph loaded from Scenario 1. -/
def g8 : Graph := (parseGraphMl doc8).toOption.getD ⟨[]⟩

/-- A graph with two tied shortest paths A-B-E and A-C-E (both of weight
3) whose tie is broken differently by the two query directions. -/
def docTie : GraphMlDoc :=
  ⟨["A", "B", "C", "E"],
   [mkEdgeRecord "A" "B" 1, mkEdgeRecord "A" "C" 2, mkEdgeRecord "B" "E" 2,
    mkEdgeRecord "C" "E" 1]⟩

/-- The graph loaded from `docTie`. -/
def gTie : Graph := (parseGraphMl docTie).toOption.getD ⟨[]⟩

/-- A graph in which node C is isolated: nodes {A,B,C}, single edge
A-B(1) (Scenario 3 of the spec). -/
def docIso : GraphMlDoc :=
  ⟨["A", "B", "C"], [mkEdgeRecord "A" "B" 1]⟩

/-- The graph loaded from `docIso`. -/
def gIso : Graph := (parseGraphMl docIso).toOption.getD ⟨[]⟩

/-- A document with a negative edge weight. -/
def docNeg : GraphMlDoc :=
  ⟨["A", "B"], [mkEdgeRecord "A" "B" (-5)]⟩

/-- A document whose node list contains the identifier "A" twice. -/
def docDup : GraphMlDoc :=
  ⟨["A", "A"], [mkEdgeRecord "A" "A" 1]⟩

deriving instance DecidableEq for Except

/-! ## Specification-level predicates over the embedded model -/

/-- The name of the node at index `i` (`""` for an out-of-range index). -/
def nodeName (g : Graph) (i : Nat) : String :=
  ((g.graphNodes[i]?).map (·.name)).getD ""

/-- The distance currently recorded in the table for node `v` (`⊤` when
the node has no entry). -/
def distT (table : List LookupTableEntry) (v : Nat) : WithTop ℤ :=
  ((getTableEntryforNode table v).map (·.shortestDistanceToTargetNode)).getD ⊤

/-- The predecessor currently recorded in the table for node `v`. -/
def prevT (table : List LookupTableEntry) (v : Nat) : Option Nat :=
  ((getTableEntryforNode table v).map (·.previousNode)).getD none

/-- Node `i`'s adjacency list holds a record of weight `w` pointing at
node `j`. -/
def EdgeIn (g : Graph) (i j : Nat) (w : ℤ) : Prop :=
  ∃ nd, g.graphNodes[i]? = some nd ∧ (⟨j, w⟩ : EdgeToNode) ∈ nd.edgesToNodes

/-- A walk from `s` to `v` along adjacency records, recorded as the list
of its nodes (from `s` to `v` inclusive) together with the sum of the
weights of the records used between consecutive nodes. -/
inductive IndexPath (g : Graph) (s : Nat) : Nat → List Nat → ℤ → Prop
  | nil : IndexPath g s s [s] 0
  | cons {u v : Nat} {p : List Nat} {c w : ℤ} :
      IndexPath g s u p c → EdgeIn g u v w → IndexPath g s v (p ++ [v]) (c + w)

/-- `v` is reachable from `s` in `g`. -/
def Reaches (g : Graph) (s v : Nat) : Prop := ∃ p c, IndexPath g s v p c

/-- Every adjacency record points inside the graph's node list. -/
def GraphWF (g : Graph) : Prop :=
  ∀ nd ∈ g.graphNodes, ∀ e ∈ nd.edgesToNodes, e.targetNode < g.graphNodes.length

/-- Every stored edge weight is strictly positive (the data-model
invariant of the spec). -/
def PosWeights (g : Graph) : Prop :=
  ∀ nd ∈ g.graphNodes, ∀ e ∈ nd.edgesToNodes, 0 < e.weight

/-- Adjacency records come in reciprocal pairs of equal weight
(undirected storage). -/
def SymmetricAdj (g : Graph) : Prop := ∀ i j w, EdgeIn g i j w → EdgeIn g j i w

/-- The lookup table has exactly one entry per graph node, in graph
order: entry `i` is for node `i`. -/
def TableWF (n : Nat) (table : List LookupTableEntry) : Prop :=
  table.map (·.node) = List.range n

instance (n : Nat) (t : List LookupTableEntry) : Decidable (TableWF n t) := by
  unfold TableWF
  infer_instance

instance (g : Graph) : Decidable (GraphWF g) := by
  unfold GraphWF
  infer_instance

instance (g : Graph) : Decidable (PosWeights g) := by
  unfold PosWeights
  infer_instance

/-! ## Arithmetic helpers on `WithTop ℤ` -/

theorem wt_le_add_nonneg (a : WithTop ℤ) {w : ℤ} (hw : 0 ≤ w) :
    a ≤ a + (w : WithTop ℤ) := by
  cases a with
  | top => simp
  | coe q =>
    rw [← WithTop.coe_add, WithTop.coe_le_coe]
    omega

theorem wt_lt_add_pos {a : WithTop ℤ} (ha : a ≠ ⊤) {w : ℤ} (hw : 0 < w) :
    a < a + (w : WithTop ℤ) := by
  cases a with
  | top => exact absurd rfl ha
  | coe q =>
    rw [← WithTop.coe_add, WithTop.coe_lt_coe]
    omega

theorem wt_not_add_lt (a : WithTop ℤ) {w : ℤ} (hw : 0 ≤ w) :
    ¬ (a + (w : WithTop ℤ) < a) :=
  not_lt_of_le (wt_le_add_nonneg a hw)

theorem wt_add_nonneg {a : WithTop ℤ} (ha : 0 ≤ a) {w : ℤ} (hw : 0 ≤ w) :
    (0 : WithTop ℤ) ≤ a + (w : WithTop ℤ) := by
  have : (0 : WithTop ℤ) + 0 ≤ a + (w : WithTop ℤ) :=
    add_le_add ha (by exact_mod_cast hw)
  simpa using this

theorem wt_add_mono {a b : WithTop ℤ} (h : a ≤ b) (w : ℤ) :
    a + (w : WithTop ℤ) ≤ b + (w : WithTop ℤ) :=
  add_le_add_right h _

/-! ## Structure of the lookup table -/

theorem tableWF_init (g : Graph) (s : Nat) :
    TableWF g.graphNodes.length (initLookupTable g s) := by
  simp [TableWF, initLookupTable, List.map_map, Function.comp_def]

theorem TableWF.length {n : Nat} {t : List LookupTableEntry} (h : TableWF n t) :
    t.length = n := by
  have := congrArg List.length h
  simpa using this

theorem TableWF.pairwise {n : Nat} {t : List LookupTableEntry} (h : TableWF n t) :
    t.Pairwise (fun a b => a.node < b.node) := by
  have hp : (t.map (·.node)).Pairwise (· < ·) := by
    rw [h]; exact List.pairwise_lt_range n
  exact List.pairwise_map.mp hp

theorem TableWF.nodupNodes {n : Nat} {t : List LookupTableEntry} (h : TableWF n t) :
    (t.map (·.node)).Nodup := by
  rw [h]; exact List.nodup_range n

theorem TableWF.node_lt {n : Nat} {t : List LookupTableEntry} (h : TableWF n t)
    {e : LookupTableEntry} (he : e ∈ t) : e.node < n := by
  have : e.node ∈ t.map (·.node) := List.mem_map_of_mem _ he
  rw [h] at this
  exact List.mem_range.mp this

theorem TableWF.exists_entry {n : Nat} {t : List LookupTableEntry} (h : TableWF n t)
    {v : Nat} (hv : v < n) : ∃ e ∈ t, e.node = v := by
  have : v ∈ t.map (·.node) := by rw [h]; exact List.mem_range.mpr hv
  rcases List.mem_map.mp this with ⟨e, he, hev⟩
  exact ⟨e, he, hev⟩

theorem getTableEntry_some {t : List LookupTableEntry} {v : Nat} {e : LookupTableEntry}
    (h : getTableEntryforNode t v = some e) : e ∈ t ∧ e.node = v := by
  refine ⟨List.mem_of_find?_eq_some h, ?_⟩
  have := List.find?_some h
  simpa using this

theorem getTableEntry_of_mem_nodup {t : List LookupTableEntry}
    (hn : (t.map (·.node)).Nodup) {e : LookupTableEntry} (he : e ∈ t) :
    getTableEntryforNode t e.node = some e := by
  induction t with
  | nil => cases he
  | cons a rest ih =>
    simp only [List.map_cons, List.nodup_cons] at hn
    rcases List.mem_cons.mp he with rfl | hrest
    · simp [getTableEntryforNode, List.find?_cons]
    · have hne : a.node ≠ e.node := by
        intro hcontra
        exact hn.1 (hcontra ▸ List.mem_map_of_mem _ hrest)
      have : getTableEntryforNode rest e.node = some e := ih hn.2 hrest
      simpa [getTableEntryforNode, List.find?_cons, hne] using this

theorem TableWF.entry_at {n : Nat} {t : List LookupTableEntry} (h : TableWF n t)
    {v : Nat} (hv : v < n) :
    ∃ e, getTableEntryforNode t v = some e ∧ e.node = v := by
  rcases h.exists_entry hv with ⟨e, he, hev⟩
  exact ⟨e, hev ▸ getTableEntry_of_mem_nodup h.nodupNodes he, hev⟩

theorem TableWF.entry_none {n : Nat} {t : List LookupTableEntry} (h : TableWF n t)
    {v : Nat} (hv : n ≤ v) : getTableEntryforNode t v = none := by
  apply List.find?_eq_none.mpr
  intro e he
  have := h.node_lt he
  simp only [beq_iff_eq]
  omega

theorem distT_of_entry {t : List LookupTableEntry} {v : Nat} {e : LookupTableEntry}
    (h : getTableEntryforNode t v = some e) :
    distT t v = e.shortestDistanceToTargetNode := by
  simp [distT, h]

theorem prevT_of_entry {t : List LookupTableEntry} {v : Nat} {e : LookupTableEntry}
    (h : getTableEntryforNode t v = some e) : prevT t v = e.previousNode := by
  simp [prevT, h]

theorem distT_of_none {t : List LookupTableEntry} {v : Nat}
    (h : getTableEntryforNode t v = none) : distT t v = ⊤ := by
  simp [distT, h]

theorem prevT_of_none {t : List LookupTableEntry} {v : Nat}
    (h : getTableEntryforNode t v = none) : prevT t v = none := by
  simp [prevT, h]

theorem distT_init (g : Graph) (s : Nat) (v : Nat) :
    distT (initLookupTable g s) v =
      if v = s ∧ v < g.graphNodes.length then 0 else ⊤ := by
  rcases Nat.lt_or_ge v g.graphNodes.length with hv | hv
  · rcases (tableWF_init g s).entry_at hv with ⟨e, hfind, hnode⟩
    have hmem := (getTableEntry_some hfind).1
    simp only [initLookupTable, List.mem_map, List.mem_range] at hmem
    rcases hmem with ⟨i, _, hie⟩
    rw [distT_of_entry hfind, ← hie]
    have hiv : i = v := by rw [← hie] at hnode; exact hnode
    subst hiv
    by_cases hs : i = s
    · subst hs; simp [hv]
    · simp [hs, hv]
  · rw [distT_of_none ((tableWF_init g s).entry_none hv)]
    have h1 : ¬ v < g.graphNodes.length := Nat.not_lt.mpr hv
    simp [h1]

theorem prevT_init (g : Graph) (s : Nat) (v : Nat) :
    prevT (initLookupTable g s) v = none := by
  rcases Nat.lt_or_ge v g.graphNodes.length with hv | hv
  · rcases (tableWF_init g s).entry_at hv with ⟨e, hfind, _⟩
    have hmem := (getTableEntry_some hfind).1
    simp only [initLookupTable, List.mem_map, List.mem_range] at hmem
    rcases hmem with ⟨i, _, hie⟩
    rw [prevT_of_entry hfind, ← hie]
  · exact prevT_of_none ((tableWF_init g s).entry_none hv)

/-! ## Updating the table -/

theorem updateFirstEntry_map_node (t : List LookupTableEntry) (v : Nat)
    (d : WithTop ℤ) (p : Nat) :
    (updateFirstEntry t v d p).map (·.node) = t.map (·.node) := by
  induction t with
  | nil => rfl
  | cons e rest ih =>
    by_cases h : e.node = v <;> simp [updateFirstEntry, h, ih]

theorem TableWF.update {n : Nat} {t : List LookupTableEntry} (h : TableWF n t)
    (v : Nat) (d : WithTop ℤ) (p : Nat) : TableWF n (updateFirstEntry t v d p) := by
  unfold TableWF
  rw [updateFirstEntry_map_node]
  exact h

theorem getTableEntry_update_self (t : List LookupTableEntry) (v : Nat)
    (d : WithTop ℤ) (p : Nat) :
    getTableEntryforNode (updateFirstEntry t v d p) v =
      (getTableEntryforNode t v).map (fun e => ⟨e.node, d, some p⟩) := by
  induction t with
  | nil => rfl
  | cons e rest ih =>
    by_cases h : e.node = v
    · simp [updateFirstEntry, h, getTableEntryforNode, List.find?_cons]
    · simp only [updateFirstEntry, h, if_false]
      simpa [getTableEntryforNode, List.find?_cons, h] using ih

theorem getTableEntry_update_other (t : List LookupTableEntry) {x v : Nat}
    (hxv : x ≠ v) (d : WithTop ℤ) (p : Nat) :
    getTableEntryforNode (updateFirstEntry t v d p) x = getTableEntryforNode t x := by
  have hvx : ¬ (v = x) := fun hc => hxv hc.symm
  induction t with
  | nil => rfl
  | cons e rest ih =>
    by_cases h : e.node = v
    · simp [updateFirstEntry, h, getTableEntryforNode, List.find?_cons, hvx]
    · by_cases hex : e.node = x
      · simp [updateFirstEntry, h, getTableEntryforNode, List.find?_cons, hex, hxv]
      · simpa [updateFirstEntry, h, getTableEntryforNode, List.find?_cons, hex] using ih

theorem distT_update_self {n : Nat} {t : List LookupTableEntry} (h : TableWF n t)
    {v : Nat} (hv : v < n) (d : WithTop ℤ) (p : Nat) :
    distT (updateFirstEntry t v d p) v = d := by
  rcases h.entry_at hv with ⟨e, hfind, _⟩
  simp [distT, getTableEntry_update_self, hfind]

theorem prevT_update_self {n : Nat} {t : List LookupTableEntry} (h : TableWF n t)
    {v : Nat} (hv : v < n) (d : WithTop ℤ) (p : Nat) :
    prevT (updateFirstEntry t v d p) v = some p := by
  rcases h.entry_at hv with ⟨e, hfind, _⟩
  simp [prevT, getTableEntry_update_self, hfind]

theorem distT_update_other (t : List LookupTableEntry) {x v : Nat} (hxv : x ≠ v)
    (d : WithTop ℤ) (p : Nat) :
    distT (updateFirstEntry t v d p) x = distT t x := by
  simp [distT, getTableEntry_update_other t hxv]

theorem prevT_update_other (t : List LookupTableEntry) {x v : Nat} (hxv : x ≠ v)
    (d : WithTop ℤ) (p : Nat) :
    prevT (updateFirstEntry t v d p) x = prevT t x := by
  simp [prevT, getTableEntry_update_other t hxv]


/-! ## Relaxation -/

/-- Recursive restatement of the relaxation fold of
`checkNeighboringNodes` (see `checkNeighboringNodes_eq`), used for
inductive proofs. -/
def relaxEdges (graphNode : Nat) : List EdgeToNode → List LookupTableEntry →
    Except Err (List LookupTableEntry)
  | [], t => .ok t
  | e :: es, t =>
    match relaxStep graphNode e t with
    | .ok t' => relaxEdges graphNode es t'
    | .error err => .error err

theorem foldl_bind_error {α β : Type} (f : α → β → Except Err β)
    (l : List α) (err : Err) :
    l.foldl (fun acc e => acc.bind (f e)) (Except.error err : Except Err β) =
      .error err := by
  induction l with
  | nil => rfl
  | cons e es ih => exact ih

theorem checkNeighboringNodes_eq (u : Nat) (edges : List EdgeToNode)
    (t : List LookupTableEntry) :
    checkNeighboringNodes t u edges = relaxEdges u edges t := by
  induction edges generalizing t with
  | nil => rfl
  | cons e es ih =>
    show List.foldl _ ((Except.ok t).bind (relaxStep u e)) es = _
    cases hstep : relaxStep u e t with
    | ok t' =>
      have hb : (Except.ok t).bind (relaxStep u e) = .ok t' := hstep
      rw [hb]
      rw [show relaxEdges u (e :: es) t = relaxEdges u es t' by
        simp [relaxEdges, hstep]]
      exact ih t'
    | error err =>
      have hb : (Except.ok t).bind (relaxStep u e) = .error err := hstep
      rw [hb, foldl_bind_error]
      simp [relaxEdges, hstep]

/-- Characterization of one relaxation step under a well-formed table:
the step succeeds, preserves table shape, never touches the current
node's entry (a positive-weight self-loop never improves itself), only
decreases distances, and the target entry either ends relaxed below the
candidate or is rewritten to exactly the candidate with the current node
as predecessor. -/
theorem relaxStep_spec {n : Nat} {u : Nat} (hu : u < n) {e : EdgeToNode}
    (hw : 0 < e.weight) (htg : e.targetNode < n)
    {t : List LookupTableEntry} (twf : TableWF n t) :
    ∃ t', relaxStep u e t = .ok t' ∧ TableWF n t' ∧
      distT t' u = distT t u ∧
      (∀ v, distT t' v ≤ distT t v) ∧
      (∀ v, (distT t' v = distT t v ∧ prevT t' v = prevT t v) ∨
        (v = e.targetNode ∧
          distT t' v = distT t u + (e.weight : WithTop ℤ) ∧
          prevT t' v = some u ∧ distT t' v < distT t v)) ∧
      distT t' e.targetNode ≤ distT t u + (e.weight : WithTop ℤ) := by
  rcases twf.entry_at hu with ⟨ue, hue, hun⟩
  rcases twf.entry_at htg with ⟨ve, hve, hvn⟩
  have hdu : distT t u = ue.shortestDistanceToTargetNode := distT_of_entry hue
  have hdv : distT t e.targetNode = ve.shortestDistanceToTargetNode := distT_of_entry hve
  by_cases hlt : ue.shortestDistanceToTargetNode + (e.weight : WithTop ℤ) <
      ve.shortestDistanceToTargetNode
  · -- the update branch
    have hneq : e.targetNode ≠ u := by
      intro hc
      subst hc
      rw [hue] at hve
      have h1 : ue = ve := by injection hve
      rw [h1] at hlt
      exact wt_not_add_lt ve.shortestDistanceToTargetNode (le_of_lt hw) hlt
    refine ⟨updateFirstEntry t e.targetNode
      (ue.shortestDistanceToTargetNode + (e.weight : WithTop ℤ)) u, ?_, ?_, ?_, ?_, ?_, ?_⟩
    · simp [relaxStep, hue, hve, hlt]
    · exact twf.update _ _ _
    · rw [distT_update_other t (fun hc => hneq hc.symm)]
    · intro v
      by_cases hv : v = e.targetNode
      · subst hv
        rw [distT_update_self twf htg, hdv]
        exact le_of_lt hlt
      · rw [distT_update_other t hv]
    · intro v
      by_cases hv : v = e.targetNode
      · subst hv
        refine .inr ⟨rfl, ?_, ?_, ?_⟩
        · rw [distT_update_self twf htg, hdu]
        · rw [prevT_update_self twf htg]
        · rw [distT_update_self twf htg, hdv]; exact hlt
      · exact .inl ⟨distT_update_other t hv _ _, prevT_update_other t hv _ _⟩
    · rw [distT_update_self twf htg, hdu]
  · -- the no-update branch
    refine ⟨t, ?_, twf, rfl, fun v => le_refl _, fun v => .inl ⟨rfl, rfl⟩, ?_⟩
    · simp [relaxStep, hue, hve, hlt]
    · rw [hdv, hdu]
      exact not_lt.mp hlt

/-- Characterization of a full relaxation pass under positive weights:
it succeeds, preserves table shape, freezes the current node's distance,
only decreases distances, changes an entry only by rewriting it to the
candidate distance through the current node, and leaves every neighbor
at or below its candidate distance. -/
theorem relaxEdges_spec {n : Nat} {u : Nat} (hu : u < n) {edges : List EdgeToNode}
    (hpos : ∀ e ∈ edges, 0 < e.weight) (htg : ∀ e ∈ edges, e.targetNode < n)
    {t : List LookupTableEntry} (twf : TableWF n t) :
    ∃ t', relaxEdges u edges t = .ok t' ∧ TableWF n t' ∧
      distT t' u = distT t u ∧
      (∀ v, distT t' v ≤ distT t v) ∧
      (∀ v, (distT t' v = distT t v ∧ prevT t' v = prevT t v) ∨
        (∃ w, (⟨v, w⟩ : EdgeToNode) ∈ edges ∧
          distT t' v = distT t u + (w : WithTop ℤ) ∧ prevT t' v = some u ∧
          distT t' v < distT t v)) ∧
      (∀ e ∈ edges, distT t' e.targetNode ≤ distT t u + (e.weight : WithTop ℤ)) := by
  induction edges generalizing t with
  | nil =>
    exact ⟨t, rfl, twf, rfl, fun v => le_refl _, fun v => .inl ⟨rfl, rfl⟩, by simp⟩
  | cons e es ih =>
    have hw := hpos e (List.mem_cons_self e es)
    have ht := htg e (List.mem_cons_self e es)
    rcases relaxStep_spec hu hw ht twf with
      ⟨t₁, hstep, twf₁, hfz₁, hmono₁, hchg₁, hpost₁⟩
    rcases ih (fun e' he' => hpos e' (List.mem_cons_of_mem _ he'))
      (fun e' he' => htg e' (List.mem_cons_of_mem _ he')) twf₁ with
      ⟨t', hrest, twf', hfz', hmono', hchg', hpost'⟩
    refine ⟨t', ?_, twf', ?_, ?_, ?_, ?_⟩
    · rw [show relaxEdges u (e :: es) t = relaxEdges u es t₁ by simp [relaxEdges, hstep]]
      exact hrest
    · rw [hfz', hfz₁]
    · intro v
      exact le_trans (hmono' v) (hmono₁ v)
    · intro v
      rcases hchg' v with ⟨hd', hp'⟩ | ⟨w, hwmem, hdw, hpw, hlt'⟩
      · rcases hchg₁ v with ⟨hd₁, hp₁⟩ | ⟨hv, hd₁, hp₁, hlt₁⟩
        · exact .inl ⟨by rw [hd', hd₁], by rw [hp', hp₁]⟩
        · refine .inr ⟨e.weight, ?_, by rw [hd', hd₁], by rw [hp', hp₁],
            by rw [hd']; exact hlt₁⟩
          subst hv
          exact List.mem_cons_self e es
      · refine .inr ⟨w, List.mem_cons_of_mem _ hwmem, by rw [hdw, hfz₁], hpw,
          lt_of_lt_of_le hlt' (hmono₁ v)⟩
    · intro e' he'
      rcases List.mem_cons.mp he' with rfl | hes
      · exact le_trans (hmono' _) hpost₁
      · have := hpost' e' hes
        rw [hfz₁] at this
        exact this

/-- Relaxing the adjacency list of a node whose recorded distance is
`Infinity` changes nothing: the candidate `Infinity + w` is `Infinity`,
which is never strictly below any entry. -/
theorem relaxEdges_noop_of_top {n u : Nat} (hu : u < n) {edges : List EdgeToNode}
    (htg : ∀ e ∈ edges, e.targetNode < n)
    {t : List LookupTableEntry} (twf : TableWF n t) (htop : distT t u = ⊤) :
    relaxEdges u edges t = .ok t := by
  induction edges with
  | nil => rfl
  | cons e es ih =>
    rcases twf.entry_at hu with ⟨ue, hue, _⟩
    rcases twf.entry_at (htg e (List.mem_cons_self e es)) with ⟨ve, hve, _⟩
    have hut : ue.shortestDistanceToTargetNode = ⊤ := by
      rw [distT_of_entry hue] at htop
      exact htop
    have hstep : relaxStep u e t = .ok t := by
      simp [relaxStep, hue, hve, hut, not_top_lt]
    rw [show relaxEdges u (e :: es) t = relaxEdges u es t by simp [relaxEdges, hstep]]
    exact ih (fun e' he' => htg e' (List.mem_cons_of_mem _ he'))

/-! ## Frontier selection -/

theorem foldl_min_spec (a : LookupTableEntry) (l : List LookupTableEntry) :
    ∃ r, l.foldl
        (fun best e =>
          if e.shortestDistanceToTargetNode < best.shortestDistanceToTargetNode then e
          else best) a = r ∧
      ((r = a ∧ ∀ e ∈ l,
          a.shortestDistanceToTargetNode ≤ e.shortestDistanceToTargetNode) ∨
       (∃ l₁ l₂, l = l₁ ++ r :: l₂ ∧
         r.shortestDistanceToTargetNode < a.shortestDistanceToTargetNode ∧
         (∀ e ∈ l₁, r.shortestDistanceToTargetNode < e.shortestDistanceToTargetNode) ∧
         (∀ e ∈ l₂, r.shortestDistanceToTargetNode ≤ e.shortestDistanceToTargetNode))) := by
  induction l generalizing a with
  | nil => exact ⟨a, rfl, .inl ⟨rfl, by simp⟩⟩
  | cons e l ih =>
    by_cases hlt : e.shortestDistanceToTargetNode < a.shortestDistanceToTargetNode
    · rcases ih e with ⟨r, hr, hcase⟩
      refine ⟨r, by simpa [hlt] using hr, .inr ?_⟩
      rcases hcase with ⟨rfl, hall⟩ | ⟨l₁, l₂, hsplit, hra, hpre, hsuf⟩
      · exact ⟨[], l, by simp, hlt, by simp, hall⟩
      · exact ⟨e :: l₁, l₂, by rw [hsplit]; simp, lt_trans hra hlt,
          fun x hx => by
            rcases List.mem_cons.mp hx with rfl | hx'
            · exact hra
            · exact hpre x hx', hsuf⟩
    · rcases ih a with ⟨r, hr, hcase⟩
      refine ⟨r, by simpa [hlt] using hr, ?_⟩
      rcases hcase with ⟨rfl, hall⟩ | ⟨l₁, l₂, hsplit, hra, hpre, hsuf⟩
      · refine .inl ⟨rfl, fun x hx => ?_⟩
        rcases List.mem_cons.mp hx with rfl | hx'
        · exact not_lt.mp hlt
        · exact hall x hx'
      · refine .inr ⟨e :: l₁, l₂, by rw [hsplit]; simp, hra,
          fun x hx => ?_, hsuf⟩
        rcases List.mem_cons.mp hx with rfl | hx'
        · exact lt_of_lt_of_le hra (not_lt.mp hlt)
        · exact hpre x hx'

theorem find?_beq_self {l : List Nat} {x : Nat} (hx : x ∈ l) :
    l.find? (fun z => z == x) = some x := by
  induction l with
  | nil => cases hx
  | cons a l ih =>
    rcases List.mem_cons.mp hx with rfl | hx'
    · simp [List.find?_cons]
    · by_cases hax : a = x
      · subst hax; simp [List.find?_cons]
      · simpa [List.find?_cons, hax] using ih hx'

/-- `findNodeWithSmallestKnownDistance` returns an unvisited node whose
recorded distance is minimal among the unvisited nodes, and among the
minimizers it is the one that comes first in the table's order — which,
for a well-formed table, is the graph's node ordering (entry `i` is node
`i`), so the chosen node has the least index among the minimizers. -/
theorem findSmallest_spec {n : Nat} {table : List LookupTableEntry}
    (twf : TableWF n table) {unvisited : List Nat}
    (hsub : ∀ v ∈ unvisited, v < n) (hne : unvisited ≠ []) :
    ∃ u, findNodeWithSmallestKnownDistance table unvisited = .ok u ∧
      u ∈ unvisited ∧
      (∀ v ∈ unvisited, distT table u ≤ distT table v) ∧
      (∀ v ∈ unvisited, v < u → distT table u < distT table v) := by
  have hmemfil : ∀ v ∈ unvisited,
      ∃ e, e ∈ table.filter (fun e => unvisited.contains e.node) ∧ e.node = v ∧
        distT table v = e.shortestDistanceToTargetNode := by
    intro v hv
    rcases twf.entry_at (hsub v hv) with ⟨e, hfind, hnode⟩
    have hmem : e ∈ table := (getTableEntry_some hfind).1
    refine ⟨e, List.mem_filter.mpr ⟨hmem, ?_⟩, hnode, distT_of_entry hfind⟩
    simpa [hnode] using hv
  cases hfil : table.filter (fun e => unvisited.contains e.node) with
  | nil =>
    rcases List.exists_mem_of_ne_nil unvisited hne with ⟨v, hv⟩
    rcases hmemfil v hv with ⟨e, he, _, _⟩
    rw [hfil] at he
    cases he
  | cons h tfil =>
    rcases foldl_min_spec h tfil with ⟨r, hr, hcase⟩
    obtain ⟨fl₁, fl₂, hsr, hpre, hsuf⟩ : ∃ fl₁ fl₂,
        h :: tfil = fl₁ ++ r :: fl₂ ∧
        (∀ e ∈ fl₁,
          r.shortestDistanceToTargetNode < e.shortestDistanceToTargetNode) ∧
        (∀ e ∈ fl₂,
          r.shortestDistanceToTargetNode ≤ e.shortestDistanceToTargetNode) := by
      rcases hcase with ⟨rfl, hall⟩ | ⟨l₁, l₂, hs, hra, hpre, hsuf⟩
      · exact ⟨[], tfil, by simp, by simp, hall⟩
      · refine ⟨h :: l₁, l₂, by rw [hs]; simp, fun x hx => ?_, hsuf⟩
        rcases List.mem_cons.mp hx with rfl | hx'
        · exact hra
        · exact hpre x hx'
    have hrmem : r ∈ h :: tfil := by
      rw [hsr]
      exact List.mem_append.mpr (.inr (List.mem_cons_self r fl₂))
    have hrfil : r ∈ table.filter (fun e => unvisited.contains e.node) := by
      rw [hfil]; exact hrmem
    have hrtable : r ∈ table := (List.mem_filter.mp hrfil).1
    have hrunv : r.node ∈ unvisited := by
      have := (List.mem_filter.mp hrfil).2
      simpa using this
    have hmin : ∀ e ∈ h :: tfil,
        r.shortestDistanceToTargetNode ≤ e.shortestDistanceToTargetNode := by
      intro e he
      rw [hsr] at he
      rcases List.mem_append.mp he with h1 | h2
      · exact le_of_lt (hpre e h1)
      · rcases List.mem_cons.mp h2 with rfl | h3
        · exact le_refl _
        · exact hsuf e h3
    have hdistr : distT table r.node = r.shortestDistanceToTargetNode :=
      distT_of_entry (getTableEntry_of_mem_nodup twf.nodupNodes hrtable)
    have hout : findNodeWithSmallestKnownDistance table unvisited = .ok r.node := by
      unfold findNodeWithSmallestKnownDistance
      rw [hfil]
      simp only [hr, find?_beq_self hrunv]
    refine ⟨r.node, hout, hrunv, ?_, ?_⟩
    · intro v hv
      rcases hmemfil v hv with ⟨e, hef, _, hde⟩
      rw [hfil] at hef
      rw [hdistr, hde]
      exact hmin e hef
    · intro v hv hvlt
      rcases hmemfil v hv with ⟨e, hef, hnode, hde⟩
      rw [hfil, hsr] at hef
      have hpw : (fl₁ ++ r :: fl₂).Pairwise (fun a b => a.node < b.node) := by
        have := (twf.pairwise).filter (fun e => unvisited.contains e.node)
        rw [hfil, hsr] at this
        exact this
      rcases List.mem_append.mp hef with h1 | h2
      · rw [hdistr, hde]
        exact hpre e h1
      · rcases List.mem_cons.mp h2 with rfl | h3
        · exact absurd hvlt (by rw [hnode]; exact lt_irrefl _)
        · exfalso
          have hcross := (List.pairwise_append.mp hpw).2.2
          have h4 : r.node < e.node :=
            (List.pairwise_cons.mp (List.pairwise_append.mp hpw).2.1).1 e h3
          rw [hnode] at h4
          omega

/-- Unconditionally, a successful frontier selection returns a member of
the unvisited list (the final `unvisited.find`). -/
theorem findSmallest_mem {table : List LookupTableEntry} {unvisited : List Nat}
    {u : Nat} (h : findNodeWithSmallestKnownDistance table unvisited = .ok u) :
    u ∈ unvisited := by
  unfold findNodeWithSmallestKnownDistance at h
  cases hfil : table.filter (fun e => unvisited.contains e.node) with
  | nil => rw [hfil] at h; cases h
  | cons hh tt =>
    rw [hfil] at h
    simp only at h
    cases hfind : unvisited.find? (fun x => x ==
        (tt.foldl (fun best e =>
          if e.shortestDistanceToTargetNode < best.shortestDistanceToTargetNode then e
          else best) hh).node) with
    | none => rw [hfind] at h; cases h
    | some y =>
      rw [hfind] at h
      injection h with h
      subst h
      exact List.mem_of_find?_eq_some hfind

/-! ## The main loop invariant -/

theorem edgeIn_iff {g : Graph} {u : Nat} {nd : GraphNode}
    (hnd : g.graphNodes[u]? = some nd) (v : Nat) (w : ℤ) :
    EdgeIn g u v w ↔ (⟨v, w⟩ : EdgeToNode) ∈ nd.edgesToNodes := by
  constructor
  · rintro ⟨nd', hnd', hm⟩
    rw [hnd] at hnd'
    injection hnd' with h
    rw [h]
    exact hm
  · intro hm
    exact ⟨nd, hnd, hm⟩

theorem wt_coe_sub_of_add_eq {a : WithTop ℤ} {w c : ℤ}
    (h : a + (w : WithTop ℤ) = (c : WithTop ℤ)) :
    a = ((c - w : ℤ) : WithTop ℤ) := by
  cases a with
  | top => simp at h
  | coe q =>
    rw [← WithTop.coe_add, WithTop.coe_inj] at h
    rw [WithTop.coe_inj]
    omega

/-- The invariant maintained by the main loop for graph `g` and start
node `s`: the table keeps its shape; visited and unvisited partition the
nodes; the start keeps distance `0`; distances are nonnegative; finite
distances of non-start nodes have predecessors and vice versa; a
recorded predecessor is a visited node joined by an adjacency record
whose relaxation equation still holds; no unvisited distance is below a
visited one; all adjacency records out of visited nodes are relaxed; and
every finite recorded distance is realized by an actual path. -/
structure LoopInv (g : Graph) (s : Nat) (table : List LookupTableEntry)
    (unvisited visited : List Nat) : Prop where
  twf : TableWF g.graphNodes.length table
  perm : (visited ++ unvisited).Perm (List.range g.graphNodes.length)
  startDist : distT table s = 0
  nonneg : ∀ v, 0 ≤ distT table v
  finite_to : ∀ v, distT table v ≠ ⊤ → v = s ∨ (prevT table v).isSome
  prevEq : ∀ v u, prevT table v = some u →
    u ∈ visited ∧ distT table v ≠ ⊤ ∧
    ∃ w : ℤ, EdgeIn g u v w ∧ distT table v = distT table u + (w : WithTop ℤ)
  frontier : ∀ x ∈ visited, ∀ y ∈ unvisited, distT table x ≤ distT table y
  relaxedVis : ∀ x ∈ visited, ∀ v (w : ℤ), EdgeIn g x v w →
    distT table v ≤ distT table x + (w : WithTop ℤ)
  pathW : ∀ v (c : ℤ), distT table v = (c : WithTop ℤ) → ∃ p, IndexPath g s v p c

theorem loopInv_init (g : Graph) {s : Nat} (hs : s < g.graphNodes.length) :
    LoopInv g s (initLookupTable g s) (List.range g.graphNodes.length) [] := by
  refine ⟨tableWF_init g s, by simp, ?_, ?_, ?_, ?_, ?_, ?_, ?_⟩
  · rw [distT_init]
    simp [hs]
  · intro v
    rw [distT_init]
    split
    · exact le_refl _
    · exact le_top
  · intro v hv
    rw [distT_init] at hv
    by_cases h : v = s ∧ v < g.graphNodes.length
    · exact .inl h.1
    · rw [if_neg h] at hv
      exact absurd rfl hv
  · intro v u hvu
    rw [prevT_init] at hvu
    cases hvu
  · intro x hx
    cases hx
  · intro x hx
    cases hx
  · intro v c hvc
    rw [distT_init] at hvc
    by_cases h : v = s ∧ v < g.graphNodes.length
    · rw [if_pos h] at hvc
      have hc : c = 0 := by exact_mod_cast hvc.symm
      subst hc
      rw [h.1]
      exact ⟨[s], IndexPath.nil⟩
    · rw [if_neg h] at hvc
      exact absurd hvc.symm (WithTop.coe_ne_top)

/-- One iteration of the main loop preserves the invariant: popping the
minimal unvisited node `u` and relaxing its adjacency list. -/
theorem loopInv_step {g : Graph} {s : Nat} (hg : GraphWF g) (hpos : PosWeights g)
    {table : List LookupTableEntry} {unvisited visited : List Nat}
    (inv : LoopInv g s table unvisited visited)
    {u : Nat} (hu : u ∈ unvisited)
    (hmin : ∀ y ∈ unvisited, distT table u ≤ distT table y)
    {nd : GraphNode} (hnd : g.graphNodes[u]? = some nd)
    {t' : List LookupTableEntry}
    (hrelax : relaxEdges u nd.edgesToNodes table = .ok t') :
    LoopInv g s t' (unvisited.erase u) (visited ++ [u]) := by
  have hmemrange : ∀ y, y ∈ visited ++ unvisited → y < g.graphNodes.length := by
    intro y hy
    exact List.mem_range.mp (inv.perm.mem_iff.mp hy)
  have hunb : ∀ y ∈ unvisited, y < g.graphNodes.length := fun y hy =>
    hmemrange y (List.mem_append.mpr (.inr hy))
  have hun : u < g.graphNodes.length := hunb u hu
  have hndmem : nd ∈ g.graphNodes := List.getElem?_mem hnd
  have hposE : ∀ e ∈ nd.edgesToNodes, 0 < e.weight := fun e he => hpos nd hndmem e he
  have htgE : ∀ e ∈ nd.edgesToNodes, e.targetNode < g.graphNodes.length :=
    fun e he => hg nd hndmem e he
  rcases relaxEdges_spec hun hposE htgE inv.twf with
    ⟨t'', hok, twf', hfz, hmono, hchg, hpost⟩
  rw [hok] at hrelax
  injection hrelax with hrelax
  subst hrelax
  have hfrozen : ∀ x ∈ visited, distT t'' x = distT table x := by
    intro x hx
    rcases hchg x with ⟨hd, _⟩ | ⟨w, hwmem, hdw, _, hlt⟩
    · exact hd
    · exfalso
      have h1 : distT table x ≤ distT table u := inv.frontier x hx u hu
      have h2 : distT table u ≤ distT table u + (w : WithTop ℤ) :=
        wt_le_add_nonneg _ (le_of_lt (hposE _ hwmem))
      rw [hdw] at hlt
      exact absurd (lt_of_lt_of_le hlt (le_trans h1 h2)) (lt_irrefl _)
  have hperm : ((visited ++ [u]) ++ unvisited.erase u).Perm
      (List.range g.graphNodes.length) := by
    have h1 := (List.perm_cons_erase hu).symm
    have h2 : (visited ++ [u]) ++ unvisited.erase u =
        visited ++ (u :: unvisited.erase u) := by simp
    rw [h2]
    exact (List.Perm.append_left visited h1).trans inv.perm
  have hstart : distT t'' s = 0 := by
    rcases hchg s with ⟨hd, _⟩ | ⟨w, hwmem, hdw, _, hlt⟩
    · rw [hd, inv.startDist]
    · exfalso
      have h0 : (0 : WithTop ℤ) ≤ distT t'' s := by
        rw [hdw]
        exact wt_add_nonneg (inv.nonneg u) (le_of_lt (hposE _ hwmem))
      rw [inv.startDist] at hlt
      exact absurd (lt_of_le_of_lt h0 hlt) (lt_irrefl _)
  have hnn : ∀ v, 0 ≤ distT t'' v := by
    intro v
    rcases hchg v with ⟨hd, _⟩ | ⟨w, hwmem, hdw, _, _⟩
    · rw [hd]; exact inv.nonneg v
    · rw [hdw]; exact wt_add_nonneg (inv.nonneg u) (le_of_lt (hposE _ hwmem))
  have hft : ∀ v, distT t'' v ≠ ⊤ → v = s ∨ (prevT t'' v).isSome := by
    intro v hv
    rcases hchg v with ⟨hd, hp⟩ | ⟨w, hwmem, hdw, hpw, _⟩
    · rw [hd] at hv
      rw [hp]
      exact inv.finite_to v hv
    · rw [hpw]
      exact .inr rfl
  have hpe : ∀ v p, prevT t'' v = some p →
      p ∈ visited ++ [u] ∧ distT t'' v ≠ ⊤ ∧
      ∃ w : ℤ, EdgeIn g p v w ∧ distT t'' v = distT t'' p + (w : WithTop ℤ) := by
    intro v p hvp
    rcases hchg v with ⟨hd, hp⟩ | ⟨w, hwmem, hdw, hpw, hlt⟩
    · rw [hp] at hvp
      rcases inv.prevEq v p hvp with ⟨hpv, hne, w, hew, heq⟩
      refine ⟨List.mem_append.mpr (.inl hpv), by rw [hd]; exact hne, w, hew, ?_⟩
      rw [hd, heq, hfrozen p hpv]
    · rw [hpw] at hvp
      injection hvp with hvp
      subst hvp
      refine ⟨List.mem_append.mpr (.inr (List.mem_cons_self u [])),
        ne_top_of_lt hlt, w, (edgeIn_iff hnd v w).mpr hwmem, ?_⟩
      rw [hdw, hfz]
  have hfr : ∀ x ∈ visited ++ [u], ∀ y ∈ unvisited.erase u,
      distT t'' x ≤ distT t'' y := by
    intro x hx y hy
    have hyu : y ∈ unvisited := List.mem_of_mem_erase hy
    rcases List.mem_append.mp hx with hxv | hxu
    · rw [hfrozen x hxv]
      rcases hchg y with ⟨hd, _⟩ | ⟨w, hwmem, hdw, _, _⟩
      · rw [hd]
        exact inv.frontier x hxv y hyu
      · rw [hdw]
        exact le_trans (inv.frontier x hxv u hu)
          (wt_le_add_nonneg _ (le_of_lt (hposE _ hwmem)))
    · have hxu' : x = u := by simpa using hxu
      subst hxu'
      rw [hfz]
      rcases hchg y with ⟨hd, _⟩ | ⟨w, hwmem, hdw, _, _⟩
      · rw [hd]
        exact hmin y hyu
      · rw [hdw]
        exact wt_le_add_nonneg _ (le_of_lt (hposE _ hwmem))
  have hrv : ∀ x ∈ visited ++ [u], ∀ v (w : ℤ), EdgeIn g x v w →
      distT t'' v ≤ distT t'' x + (w : WithTop ℤ) := by
    intro x hx v w hew
    rcases List.mem_append.mp hx with hxv | hxu
    · rw [hfrozen x hxv]
      exact le_trans (hmono v) (inv.relaxedVis x hxv v w hew)
    · have hxu' : x = u := by simpa using hxu
      subst hxu'
      rw [hfz]
      exact hpost ⟨v, w⟩ ((edgeIn_iff hnd v w).mp hew)
  have hpw2 : ∀ v (c : ℤ), distT t'' v = (c : WithTop ℤ) → ∃ p, IndexPath g s v p c := by
    intro v c hvc
    rcases hchg v with ⟨hd, _⟩ | ⟨w, hwmem, hdw, _, _⟩
    · rw [hd] at hvc
      exact inv.pathW v c hvc
    · rw [hdw] at hvc
      have hu' : distT table u = ((c - w : ℤ) : WithTop ℤ) := wt_coe_sub_of_add_eq hvc
      rcases inv.pathW u (c - w) hu' with ⟨p, hp⟩
      refine ⟨p ++ [v], ?_⟩
      have hcons := IndexPath.cons hp ((edgeIn_iff hnd v w).mpr hwmem)
      have harith : c - w + w = c := by omega
      rw [harith] at hcons
      exact hcons
  exact ⟨twf', hperm, hstart, hnn, hft, hpe, hfr, hrv, hpw2⟩

theorem dijkstraLoop_unfold_step {g : Graph} {n fuel : Nat}
    {table t₁ : List LookupTableEntry} {unvisited visited : List Nat}
    {u : Nat} {nd : GraphNode}
    (hvl : visited.length < n)
    (hout : findNodeWithSmallestKnownDistance table unvisited = .ok u)
    (hnd : g.graphNodes[u]? = some nd)
    (hcheck : checkNeighboringNodes table u nd.edgesToNodes = .ok t₁) :
    dijkstraLoop g n (fuel + 1) table unvisited visited =
      dijkstraLoop g n fuel t₁ (spliceOutNode unvisited u) (visited ++ [u]) := by
  simp [dijkstraLoop, hvl, hout, hnd, hcheck, Bind.bind, Except.bind]

theorem dijkstraLoop_exit {g : Graph} {n fuel : Nat}
    {table : List LookupTableEntry} {unvisited visited : List Nat}
    (hvl : ¬ visited.length < n) :
    dijkstraLoop g n fuel table unvisited visited = .ok (table, unvisited, visited) := by
  cases fuel with
  | zero => simp [dijkstraLoop, hvl]
  | succ fuel => simp [dijkstraLoop, hvl]

/-- Running the main loop from a state satisfying the invariant, with
enough fuel, succeeds; the final state satisfies the invariant, its
unvisited list is empty, and its visited list is a permutation of all
nodes. -/
theorem dijkstraLoop_spec {g : Graph} {s : Nat} (hg : GraphWF g) (hpos : PosWeights g) :
    ∀ (fuel : Nat) (table : List LookupTableEntry) (unvisited visited : List Nat),
    LoopInv g s table unvisited visited →
    g.graphNodes.length - visited.length ≤ fuel →
    ∃ t' vis', dijkstraLoop g g.graphNodes.length fuel table unvisited visited =
        .ok (t', [], vis') ∧ LoopInv g s t' [] vis' ∧
        vis'.Perm (List.range g.graphNodes.length) := by
  intro fuel
  induction fuel with
  | zero =>
    intro table unvisited visited inv hfuel
    have hvl : ¬ visited.length < g.graphNodes.length := by omega
    have hlen : visited.length + unvisited.length = g.graphNodes.length := by
      have := inv.perm.length_eq
      simpa using this
    have hunv : unvisited = [] := by
      have h0 : unvisited.length = 0 := by omega
      exact List.eq_nil_of_length_eq_zero h0
    subst hunv
    refine ⟨table, visited, dijkstraLoop_exit hvl, inv, ?_⟩
    simpa using inv.perm
  | succ fuel ih =>
    intro table unvisited visited inv hfuel
    by_cases hvl : visited.length < g.graphNodes.length
    · have hlen : visited.length + unvisited.length = g.graphNodes.length := by
        have := inv.perm.length_eq
        simpa using this
      have hne : unvisited ≠ [] := by
        intro hc
        rw [hc] at hlen
        simp at hlen
        omega
      have hsub : ∀ v ∈ unvisited, v < g.graphNodes.length := by
        intro v hv
        exact List.mem_range.mp (inv.perm.mem_iff.mp (List.mem_append.mpr (.inr hv)))
      rcases findSmallest_spec inv.twf hsub hne with ⟨u, hout, humem, humin, _⟩
      have hun : u < g.graphNodes.length := hsub u humem
      obtain ⟨nd, hnd⟩ : ∃ nd, g.graphNodes[u]? = some nd :=
        ⟨g.graphNodes[u], List.getElem?_eq_getElem hun⟩
      have hposE : ∀ e ∈ nd.edgesToNodes, 0 < e.weight :=
        fun e he => hpos nd (List.getElem?_mem hnd) e he
      have htgE : ∀ e ∈ nd.edgesToNodes, e.targetNode < g.graphNodes.length :=
        fun e he => hg nd (List.getElem?_mem hnd) e he
      rcases relaxEdges_spec hun hposE htgE inv.twf with ⟨t₁, hok, _, _, _, _, _⟩
      have hcheck : checkNeighboringNodes table u nd.edgesToNodes = .ok t₁ := by
        rw [checkNeighboringNodes_eq]
        exact hok
      have hsplice : spliceOutNode unvisited u = unvisited.erase u := by
        simp [spliceOutNode, humem]
      have inv' : LoopInv g s t₁ (unvisited.erase u) (visited ++ [u]) :=
        loopInv_step hg hpos inv humem humin hnd hok
      have hfuel' : g.graphNodes.length - (visited ++ [u]).length ≤ fuel := by
        simp only [List.length_append, List.length_cons, List.length_nil]
        omega
      rcases ih t₁ (unvisited.erase u) (visited ++ [u]) inv' hfuel' with
        ⟨t', vis', hrun, inv'', hperm'⟩
      refine ⟨t', vis', ?_, inv'', hperm'⟩
      rw [dijkstraLoop_unfold_step hvl hout hnd hcheck, hsplice]
      exact hrun
    · have hlen : visited.length + unvisited.length = g.graphNodes.length := by
        have := inv.perm.length_eq
        simpa using this
      have hunv : unvisited = [] := by
        have h0 : unvisited.length = 0 := by omega
        exact List.eq_nil_of_length_eq_zero h0
      subst hunv
      refine ⟨table, visited, dijkstraLoop_exit hvl, inv, ?_⟩
      simpa using inv.perm

/-! ## After the main loop -/

theorem edgeIn_lt {g : Graph} {u v : Nat} {w : ℤ} (h : EdgeIn g u v w) :
    u < g.graphNodes.length := by
  rcases h with ⟨nd, hnd, _⟩
  cases hlt : Nat.decLt u g.graphNodes.length with
  | isTrue h' => exact h'
  | isFalse h' =>
    rw [List.getElem?_eq_none (by omega)] at hnd
    cases hnd

theorem posWeights_edgeIn {g : Graph} (hpos : PosWeights g) {u v : Nat} {w : ℤ}
    (h : EdgeIn g u v w) : 0 < w := by
  rcases h with ⟨nd, hnd, hm⟩
  exact hpos nd (List.getElem?_mem hnd) _ hm

/-- After the loop every node is visited, so every adjacency record of
the graph is relaxed in the final table, and any path bounds the
recorded distance of its endpoint from above. -/
theorem final_upper_bound {g : Graph} {s : Nat} {tl : List LookupTableEntry}
    {vis : List Nat} (inv : LoopInv g s tl [] vis) {v : Nat} {p : List Nat} {c : ℤ}
    (hpath : IndexPath g s v p c) : distT tl v ≤ (c : WithTop ℤ) := by
  induction hpath with
  | nil =>
    rw [inv.startDist]
    exact le_of_eq (by simp)
  | @cons u v' p' c' w hp he ih =>
    have hu : u < g.graphNodes.length := edgeIn_lt he
    have huvis : u ∈ vis := by
      have h1 : u ∈ vis ++ ([] : List Nat) :=
        inv.perm.mem_iff.mpr (List.mem_range.mpr hu)
      simpa using h1
    calc distT tl v' ≤ distT tl u + (w : WithTop ℤ) := inv.relaxedVis u huvis v' w he
      _ ≤ (c' : WithTop ℤ) + (w : WithTop ℤ) := wt_add_mono ih w
      _ = ((c' + w : ℤ) : WithTop ℤ) := by rw [WithTop.coe_add]

theorem final_reach_finite {g : Graph} {s : Nat} {tl : List LookupTableEntry}
    {vis : List Nat} (inv : LoopInv g s tl [] vis) {v : Nat}
    (hreach : Reaches g s v) : distT tl v ≠ ⊤ := by
  rcases hreach with ⟨p, c, hpath⟩
  intro htop
  have := final_upper_bound inv hpath
  rw [htop] at this
  exact absurd (lt_of_le_of_lt this (WithTop.coe_lt_top c)) (lt_irrefl _)

theorem final_unreach_top {g : Graph} {s : Nat} {tl : List LookupTableEntry}
    {vis : List Nat} (inv : LoopInv g s tl [] vis) {v : Nat}
    (hunreach : ¬ Reaches g s v) :
    distT tl v = ⊤ ∧ prevT tl v = none := by
  have htop : distT tl v = ⊤ := by
    by_contra hne
    rcases Option.ne_none_iff_exists'.mp hne with ⟨c, hc⟩
    rcases inv.pathW v c hc with ⟨p, hp⟩
    exact hunreach ⟨p, c, hp⟩
  refine ⟨htop, ?_⟩
  cases hp : prevT tl v with
  | none => rfl
  | some u =>
    rcases inv.prevEq v u hp with ⟨_, hne, _⟩
    exact absurd htop hne

/-! ## Path rewind -/

/-- The number of nodes whose recorded distance is strictly below that of
`v`: the termination measure of the predecessor walk. -/
def belowCount (n : Nat) (table : List LookupTableEntry) (v : Nat) : Nat :=
  ((Finset.range n).filter
    (fun x => distT table x < distT table v)).card

theorem belowCount_le (n : Nat) (table : List LookupTableEntry) (v : Nat) :
    belowCount n table v ≤ n := by
  calc belowCount n table v ≤ (Finset.range n).card := Finset.card_filter_le _ _
    _ = n := Finset.card_range n

theorem belowCount_lt {n : Nat} {table : List LookupTableEntry} {u v : Nat}
    (hu : u < n) (hlt : distT table u < distT table v) :
    belowCount n table u < belowCount n table v := by
  apply Finset.card_lt_card
  refine (Finset.ssubset_iff_of_subset
    (Finset.monotone_filter_right _ (fun x hx => lt_trans hx hlt))).mpr ?_
  exact ⟨u, Finset.mem_filter.mpr ⟨Finset.mem_range.mpr hu, hlt⟩,
    fun hc => absurd (Finset.mem_filter.mp hc).2 (lt_irrefl _)⟩

theorem rewindPath_start {g : Graph} {table : List LookupTableEntry} {s fuel : Nat}
    {acc : List String} :
    rewindPath g table s (fuel + 1) (some s) acc = .ok acc := by
  simp [rewindPath]

theorem rewindPath_step {g : Graph} {table : List LookupTableEntry} {s fuel : Nat}
    {v : Nat} (hvs : v ≠ s) {nd : GraphNode} (hnd : g.graphNodes[v]? = some nd)
    {e : LookupTableEntry} (he : getTableEntryforNode table v = some e)
    (acc : List String) :
    rewindPath g table s (fuel + 1) (some v) acc =
      rewindPath g table s fuel e.previousNode (acc ++ [nd.name]) := by
  simp [rewindPath, hvs, hnd, he]

theorem rewindPath_none {g : Graph} {table : List LookupTableEntry} {s fuel : Nat}
    {acc : List String} :
    rewindPath g table s (fuel + 1) none acc = .error .nullDereference := by
  simp [rewindPath]

/-- A non-start node with a finite recorded distance has a visited
predecessor through an adjacency record, with a strictly smaller finite
distance. -/
theorem rewind_pred {g : Graph} {s : Nat} {table : List LookupTableEntry}
    {vis : List Nat} (hpos : PosWeights g) (inv : LoopInv g s table [] vis)
    {v : Nat} (hvs : v ≠ s) (hfin : distT table v ≠ ⊤) :
    ∃ u w, prevT table v = some u ∧ EdgeIn g u v w ∧
      distT table v = distT table u + (w : WithTop ℤ) ∧
      distT table u ≠ ⊤ ∧ distT table u < distT table v ∧
      u < g.graphNodes.length := by
  rcases inv.finite_to v hfin with rfl | hsome
  · exact absurd rfl hvs
  · rcases Option.isSome_iff_exists.mp hsome with ⟨u, hu⟩
    rcases inv.prevEq v u hu with ⟨_, _, w, hew, heq⟩
    have hw : 0 < w := posWeights_edgeIn hpos hew
    have hufin : distT table u ≠ ⊤ := by
      intro htop
      rw [htop] at heq
      rw [heq] at hfin
      exact hfin (by simp)
    have hlt : distT table u < distT table v := by
      rw [heq]
      exact wt_lt_add_pos hufin hw
    exact ⟨u, w, hu, hew, heq, hufin, hlt, edgeIn_lt hew⟩

/-- The predecessor walk from any node with a finite recorded distance
terminates at the start node, returning exactly the walked names; the
walked nodes form a path from the start whose weight is the recorded
distance. -/
theorem rewind_ok {g : Graph} {s : Nat} {table : List LookupTableEntry}
    {vis : List Nat} (hpos : PosWeights g) (inv : LoopInv g s table [] vis) :
    ∀ (k v fuel : Nat) (acc : List String),
      belowCount g.graphNodes.length table v ≤ k →
      v < g.graphNodes.length → distT table v ≠ ⊤ →
      belowCount g.graphNodes.length table v < fuel →
      ∃ (q : List Nat) (c : ℤ),
        rewindPath g table s fuel (some v) acc = .ok (acc ++ q.map (nodeName g)) ∧
        distT table v = (c : WithTop ℤ) ∧
        IndexPath g s v (s :: q.reverse) c := by
  intro k
  induction k with
  | zero =>
    intro v fuel acc hk hv hfin hfuel
    by_cases hvs : v = s
    · subst hvs
      obtain ⟨f, rfl⟩ : ∃ f, fuel = f + 1 := ⟨fuel - 1, by omega⟩
      refine ⟨[], 0, ?_, ?_, IndexPath.nil⟩
      · rw [rewindPath_start]
        simp
      · rw [inv.startDist]
        simp
    · exfalso
      rcases rewind_pred hpos inv hvs hfin with ⟨u, w, _, _, _, _, hlt, hun⟩
      have := belowCount_lt hun hlt
      omega
  | succ k ih =>
    intro v fuel acc hk hv hfin hfuel
    by_cases hvs : v = s
    · subst hvs
      obtain ⟨f, rfl⟩ : ∃ f, fuel = f + 1 := ⟨fuel - 1, by omega⟩
      refine ⟨[], 0, ?_, ?_, IndexPath.nil⟩
      · rw [rewindPath_start]
        simp
      · rw [inv.startDist]
        simp
    · rcases rewind_pred hpos inv hvs hfin with ⟨u, w, hprev, hew, heq, hufin, hlt, hun⟩
      have hbc := belowCount_lt hun hlt
      obtain ⟨f, rfl⟩ : ∃ f, fuel = f + 1 := ⟨fuel - 1, by omega⟩
      obtain ⟨nd, hnd⟩ : ∃ nd, g.graphNodes[v]? = some nd :=
        ⟨g.graphNodes[v], List.getElem?_eq_getElem hv⟩
      rcases inv.twf.entry_at hv with ⟨e, he, _⟩
      have hpe : e.previousNode = some u := by
        rw [← prevT_of_entry he]
        exact hprev
      have hname : nd.name = nodeName g v := by simp [nodeName, hnd]
      rcases ih u f (acc ++ [nodeName g v]) (by omega) hun hufin (by omega) with
        ⟨qu, cu, hrun, hdu, hpath⟩
      refine ⟨v :: qu, cu + w, ?_, ?_, ?_⟩
      · rw [rewindPath_step hvs hnd he acc, hpe, hname, hrun]
        simp
      · rw [heq, hdu, ← WithTop.coe_add]
      · have hcons := IndexPath.cons hpath hew
        have hlist : (s :: qu.reverse) ++ [v] = s :: (v :: qu).reverse := by simp
        rw [hlist] at hcons
        exact hcons

/-- When the target's recorded distance is still `Infinity` (and the
target is not the start), its predecessor was never set and the walk
crashes dereferencing `null`. -/
theorem rewind_crash_of_top {g : Graph} {s : Nat} {table : List LookupTableEntry}
    {vis : List Nat} (inv : LoopInv g s table [] vis)
    {v : Nat} (hv : v < g.graphNodes.length) (hvs : v ≠ s)
    (htop : distT table v = ⊤) (f : Nat) (acc : List String) :
    rewindPath g table s (f + 1 + 1) (some v) acc = .error .nullDereference := by
  have hprev : prevT table v = none := by
    cases hp : prevT table v with
    | none => rfl
    | some u => exact absurd htop (inv.prevEq v u hp).2.1
  obtain ⟨nd, hnd⟩ : ∃ nd, g.graphNodes[v]? = some nd :=
    ⟨g.graphNodes[v], List.getElem?_eq_getElem hv⟩
  rcases inv.twf.entry_at hv with ⟨e, he, _⟩
  have hpe : e.previousNode = none := by
    rw [← prevT_of_entry he]
    exact hprev
  rw [rewindPath_step hvs hnd he acc, hpe, rewindPath_none]

/-! ## Assembling the query pipeline -/

theorem findSPB_unfold {g : Graph} {s t : Nat}
    (hst : s < g.graphNodes.length ∧ t < g.graphNodes.length)
    {tl : List LookupTableEntry} {unv vis : List Nat}
    (hloop : dijkstraLoop g g.graphNodes.length (g.graphNodes.length + 1)
      (initLookupTable g s) (List.range g.graphNodes.length) [] = .ok (tl, unv, vis))
    {names : List String}
    (hrew : rewindPath g tl s (g.graphNodes.length + 1) (some t) [] = .ok names)
    {snd : GraphNode} (hsnd : g.graphNodes[s]? = some snd)
    {te : LookupTableEntry} (hte : getTableEntryforNode tl t = some te) :
    findShortestPathBetween g s t =
      .ok (⟨(names ++ [snd.name]).reverse, te.shortestDistanceToTargetNode⟩,
        ⟨unv.filterMap (fun i => g.graphNodes[i]?)⟩) := by
  simp [findShortestPathBetween, hst, hloop, hrew, hsnd, hte, Bind.bind, Except.bind]

theorem findSPB_unfold_rewind_error {g : Graph} {s t : Nat}
    (hst : s < g.graphNodes.length ∧ t < g.graphNodes.length)
    {tl : List LookupTableEntry} {unv vis : List Nat}
    (hloop : dijkstraLoop g g.graphNodes.length (g.graphNodes.length + 1)
      (initLookupTable g s) (List.range g.graphNodes.length) [] = .ok (tl, unv, vis))
    {err : Err}
    (hrew : rewindPath g tl s (g.graphNodes.length + 1) (some t) [] = .error err) :
    findShortestPathBetween g s t = .error err := by
  simp [findShortestPathBetween, hst, hloop, hrew, Bind.bind, Except.bind]

/-- The full success behaviour of `findShortestPathBetween` on a
well-formed positively weighted graph with a reachable target: it
returns the names along a start-to-target path whose weight is both the
returned distance and the target's final distance-table value, and the
post-state graph has an empty node list. -/
theorem findSPB_spec {g : Graph} (hg : GraphWF g) (hpos : PosWeights g)
    {s t : Nat} (hs : s < g.graphNodes.length) (ht : t < g.graphNodes.length)
    (hreach : Reaches g s t) :
    ∃ (q : List Nat) (c : ℤ) (tl : List LookupTableEntry) (vis : List Nat),
      dijkstraLoop g g.graphNodes.length (g.graphNodes.length + 1)
        (initLookupTable g s) (List.range g.graphNodes.length) [] = .ok (tl, [], vis) ∧
      LoopInv g s tl [] vis ∧
      findShortestPathBetween g s t =
        .ok (⟨(s :: q.reverse).map (nodeName g), (c : WithTop ℤ)⟩, ⟨[]⟩) ∧
      IndexPath g s t (s :: q.reverse) c ∧
      distT tl t = (c : WithTop ℤ) := by
  have inv0 := loopInv_init g hs
  rcases dijkstraLoop_spec hg hpos (g.graphNodes.length + 1) _ _ _ inv0 (by simp) with
    ⟨tl, vis, hloop, inv, hperm⟩
  have hfin : distT tl t ≠ ⊤ := final_reach_finite inv hreach
  rcases rewind_ok hpos inv (belowCount g.graphNodes.length tl t) t
      (g.graphNodes.length + 1) [] (le_refl _) ht hfin
      (by have := belowCount_le g.graphNodes.length tl t; omega) with
    ⟨q, c, hrew, hdist, hpath⟩
  obtain ⟨snd, hsnd⟩ : ∃ nd, g.graphNodes[s]? = some nd :=
    ⟨g.graphNodes[s], List.getElem?_eq_getElem hs⟩
  rcases inv.twf.entry_at ht with ⟨te, hte, _⟩
  have hrew' : rewindPath g tl s (g.graphNodes.length + 1) (some t) [] =
      .ok (q.map (nodeName g)) := by
    simpa using hrew
  have hout := findSPB_unfold ⟨hs, ht⟩ hloop hrew' hsnd hte
  refine ⟨q, c, tl, vis, hloop, inv, ?_, hpath, hdist⟩
  rw [hout]
  have h1 : te.shortestDistanceToTargetNode = (c : WithTop ℤ) := by
    rw [← distT_of_entry hte]
    exact hdist
  have hname : snd.name = nodeName g s := by simp [nodeName, hsnd]
  have h2 : ((q.map (nodeName g)) ++ [nodeName g s]).reverse =
      (s :: q.reverse).map (nodeName g) := by
    simp [List.map_reverse]
  rw [h1, hname, h2]
  simp

/-- On an unreachable non-start target the rewind dereferences a null
predecessor: the query crashes with the modelled `TypeError`. -/
theorem findSPB_crash {g : Graph} (hg : GraphWF g) (hpos : PosWeights g)
    {s t : Nat} (hs : s < g.graphNodes.length) (ht : t < g.graphNodes.length)
    (hts : t ≠ s) (hunreach : ¬ Reaches g s t) :
    findShortestPathBetween g s t = .error .nullDereference := by
  have inv0 := loopInv_init g hs
  rcases dijkstraLoop_spec hg hpos (g.graphNodes.length + 1) _ _ _ inv0 (by simp) with
    ⟨tl, vis, hloop, inv, hperm⟩
  have htop : distT tl t = ⊤ := (final_unreach_top inv hunreach).1
  obtain ⟨m, hm⟩ : ∃ m, g.graphNodes.length = m + 1 := ⟨g.graphNodes.length - 1, by omega⟩
  have hrew : rewindPath g tl s (g.graphNodes.length + 1) (some t) [] =
      .error .nullDereference := by
    rw [hm]
    exact rewind_crash_of_top inv ht hts htop m []
  exact findSPB_unfold_rewind_error ⟨hs, ht⟩ hloop hrew

theorem findIdx?_facts {α} {p : α → Bool} :
    ∀ {l : List α} {j i : Nat}, List.findIdx? p l j = some i →
      j ≤ i ∧ i - j < l.length ∧ ∃ a, l[i - j]? = some a ∧ p a := by
  intro l
  induction l with
  | nil =>
    intro j i h
    simp [List.findIdx?] at h
  | cons x xs ih =>
    intro j i h
    rw [List.findIdx?_cons] at h
    by_cases hp : p x
    · rw [if_pos hp] at h
      injection h with h
      subst h
      exact ⟨le_refl _, by simp, ⟨x, by simp, hp⟩⟩
    · rw [if_neg hp] at h
      rcases ih h with ⟨hji, hlt, a, ha, hpa⟩
      refine ⟨by omega, by simp; omega, ⟨a, ?_, hpa⟩⟩
      have hidx : i - j = (i - (j + 1)) + 1 := by omega
      rw [hidx]
      simpa using ha

theorem findIdx?_lt_length {α} {p : α → Bool} {l : List α} {i : Nat}
    (h : l.findIdx? p = some i) : i < l.length ∧ ∃ a, l[i]? = some a ∧ p a := by
  rcases findIdx?_facts h with ⟨_, hlt, a, ha, hpa⟩
  simp only [Nat.sub_zero] at hlt ha
  exact ⟨hlt, a, ha, hpa⟩

theorem dijkstra_eq_findSPB {g : Graph} {sN tN : String} {s t : Nat}
    (hsi : g.graphNodes.findIdx? (fun nd => nd.name == sN) = some s)
    (hti : g.graphNodes.findIdx? (fun nd => nd.name == tN) = some t) :
    dijkstra g sN tN = findShortestPathBetween g s t := by
  simp [dijkstra, hsi, hti]

/-! ## The query consumes the graph's node list -/

/-- Unconditionally: whenever the main loop terminates normally, the
unvisited list — which line 137 aliases to the graph's own node array —
has been spliced empty (the loop runs until `visited` holds as many
nodes as the captured length, removing one unvisited node per
iteration). -/
theorem dijkstraLoop_empties {g : Graph} {n : Nat} :
    ∀ (fuel : Nat) (table : List LookupTableEntry) (unvisited visited : List Nat)
      {t' : List LookupTableEntry} {unv' vis' : List Nat},
    dijkstraLoop g n fuel table unvisited visited = .ok (t', unv', vis') →
    visited.length + unvisited.length = n → unv' = [] := by
  intro fuel
  induction fuel with
  | zero =>
    intro table unvisited visited t' unv' vis' h hlen
    by_cases hvl : visited.length < n
    · simp [dijkstraLoop, hvl] at h
    · rw [dijkstraLoop_exit hvl] at h
      injection h with h
      have h1 : unvisited = unv' := congrArg (fun p => p.2.1) h
      have h2 : unvisited.length = 0 := by omega
      rw [← h1]
      exact List.eq_nil_of_length_eq_zero h2
  | succ fuel ih =>
    intro table unvisited visited t' unv' vis' h hlen
    by_cases hvl : visited.length < n
    · cases hout : findNodeWithSmallestKnownDistance table unvisited with
      | error e => simp [dijkstraLoop, hvl, hout, Bind.bind, Except.bind] at h
      | ok u =>
        cases hnd : g.graphNodes[u]? with
        | none => simp [dijkstraLoop, hvl, hout, hnd, Bind.bind, Except.bind] at h
        | some nd =>
          cases hcheck : checkNeighboringNodes table u nd.edgesToNodes with
          | error e =>
            simp [dijkstraLoop, hvl, hout, hnd, hcheck, Bind.bind, Except.bind] at h
          | ok t₁ =>
            rw [dijkstraLoop_unfold_step hvl hout hnd hcheck] at h
            have humem : u ∈ unvisited := findSmallest_mem hout
            have hsplice : spliceOutNode unvisited u = unvisited.erase u := by
              simp [spliceOutNode, humem]
            rw [hsplice] at h
            refine ih _ _ _ h ?_
            have herase := List.length_erase_of_mem humem
            have hpos' : 0 < unvisited.length := List.length_pos_of_mem humem
            simp only [List.length_append, List.length_cons, List.length_nil]
            omega
    · rw [dijkstraLoop_exit hvl] at h
      injection h with h
      have h1 : unvisited = unv' := congrArg (fun p => p.2.1) h
      have h2 : unvisited.length = 0 := by omega
      rw [← h1]
      exact List.eq_nil_of_length_eq_zero h2

/-- Any successful run of `findShortestPathBetween` leaves the graph
object with an empty node list. -/
theorem findSPB_post_graph {g : Graph} {s t : Nat} {sp : ShortestPath} {g' : Graph}
    (h : findShortestPathBetween g s t = .ok (sp, g')) : g'.graphNodes = [] := by
  by_cases hst : s < g.graphNodes.length ∧ t < g.graphNodes.length
  · cases hloop : dijkstraLoop g g.graphNodes.length (g.graphNodes.length + 1)
        (initLookupTable g s) (List.range g.graphNodes.length) [] with
    | error err =>
      simp [findShortestPathBetween, hst, hloop, Bind.bind, Except.bind] at h
    | ok res =>
      obtain ⟨tl, unv, vis⟩ := res
      have hunv : unv = [] := dijkstraLoop_empties _ _ _ _ hloop (by simp)
      cases hrew : rewindPath g tl s (g.graphNodes.length + 1) (some t) [] with
      | error err =>
        simp [findShortestPathBetween, hst, hloop, hrew, Bind.bind, Except.bind] at h
      | ok names =>
        cases hsnd : g.graphNodes[s]? with
        | none =>
          simp [findShortestPathBetween, hst, hloop, hrew, hsnd,
            Bind.bind, Except.bind] at h
        | some snd =>
          cases hte : getTableEntryforNode tl t with
          | none =>
            simp [findShortestPathBetween, hst, hloop, hrew, hsnd, hte,
              Bind.bind, Except.bind] at h
          | some te =>
            rw [findSPB_unfold hst hloop hrew hsnd hte] at h
            injection h with h
            have hg' : g' = ⟨unv.filterMap (fun i => g.graphNodes[i]?)⟩ :=
              (congrArg Prod.snd h).symm
            rw [hg', hunv]
            rfl
  · simp [findShortestPathBetween, hst] at h

/-- Any successful `dijkstra` query empties the graph's node list, and an
identical repeat query against the post-state graph fails to resolve the
names. -/
theorem dijkstra_post_graph {g : Graph} {sN tN : String} {sp : ShortestPath}
    {g' : Graph} (h : dijkstra g sN tN = .ok (sp, g')) :
    g'.graphNodes = [] ∧ dijkstra g' sN tN = .error .graphDoesNotContain := by
  cases hsi : g.graphNodes.findIdx? (fun nd => nd.name == sN) with
  | none => simp [dijkstra, hsi] at h
  | some s =>
    cases hti : g.graphNodes.findIdx? (fun nd => nd.name == tN) with
    | none => simp [dijkstra, hsi, hti] at h
    | some t =>
      rw [dijkstra_eq_findSPB hsi hti] at h
      have hempty := findSPB_post_graph h
      refine ⟨hempty, ?_⟩
      have hg' : g' = ⟨[]⟩ := by
        cases g' with
        | mk l => simp only at hempty; rw [hempty]
      rw [hg']
      rfl

/-! ## Loader properties -/

theorem pushEdgeAt_map_name (nodes : List GraphNode) (i : Nat) (e : EdgeToNode) :
    (pushEdgeAt nodes i e).map (·.name) = nodes.map (·.name) := by
  induction nodes generalizing i with
  | nil => rfl
  | cons nd rest ih =>
    cases i with
    | zero => simp [pushEdgeAt]
    | succ i => simp [pushEdgeAt, ih]

theorem addEdgeRecord_names {er : EdgeRecord} {g g' : Graph}
    (h : addEdgeRecord er g = .ok g') :
    g'.graphNodes.map (·.name) = g.graphNodes.map (·.name) := by
  by_cases h1 : strFalsy er.source ∨ strFalsy er.target
  · simp [addEdgeRecord, h1] at h
  · cases hd : er.data with
    | none => simp [addEdgeRecord, h1, hd] at h
    | some w =>
      cases w with
      | nan => simp [addEdgeRecord, h1, hd] at h
      | num q =>
        by_cases h2 : q = 0
        · simp [addEdgeRecord, h1, hd, h2] at h
        · cases hsi : g.graphNodes.findIdx?
              (fun nd => nd.name == er.source.getD "") with
          | none => simp [addEdgeRecord, h1, hd, h2, hsi] at h
          | some si =>
            cases hti : g.graphNodes.findIdx?
                (fun nd => nd.name == er.target.getD "") with
            | none => simp [addEdgeRecord, h1, hd, h2, hsi, hti] at h
            | some ti =>
              simp [addEdgeRecord, h1, hd, h2, hsi, hti] at h
              rw [← h]
              simp [pushEdgeAt_map_name]

theorem foldl_addEdge_names {g : Graph} :
    ∀ (edges : List EdgeRecord) (g0 : Graph),
      edges.foldl (fun acc er => acc.bind (addEdgeRecord er))
        (Except.ok g0 : Except Err Graph) = Except.ok g →
      g.graphNodes.map (·.name) = g0.graphNodes.map (·.name) := by
  intro edges
  induction edges with
  | nil =>
    intro g0 h
    injection h with h
    rw [h]
  | cons er ers ih =>
    intro g0 h
    rw [List.foldl_cons] at h
    cases hadd : addEdgeRecord er g0 with
    | error err =>
      have hb : (Except.ok g0).bind (addEdgeRecord er) = .error err := hadd
      rw [hb, foldl_bind_error] at h
      cases h
    | ok g1 =>
      have hb : (Except.ok g0).bind (addEdgeRecord er) = .ok g1 := hadd
      rw [hb] at h
      rw [ih g1 h, addEdgeRecord_names hadd]

/-- A successfully loaded graph's node names are exactly the document's
node-record identifiers, in order — the loader performs no duplicate
check, so duplicated identifiers are loaded as duplicated names. -/
theorem parseGraphMl_node_names {doc : GraphMlDoc} {g : Graph}
    (h : parseGraphMl doc = .ok g) :
    g.graphNodes.map (·.name) = doc.nodes := by
  unfold parseGraphMl at h
  by_cases h1 : doc.nodes.length < 2
  · simp [h1] at h
  · by_cases h2 : doc.edges.length = 0
    · simp [h1, h2] at h
    · simp only [h1, h2, if_false] at h
      rw [foldl_addEdge_names doc.edges ⟨doc.nodes.map fun id => ⟨id, []⟩⟩ h]
      simp [List.map_map, Function.comp_def]

theorem pushEdgeAt_edges {nodes : List GraphNode} {i : Nat} {en : EdgeToNode}
    {nd' : GraphNode} (h : nd' ∈ pushEdgeAt nodes i en) {e : EdgeToNode}
    (he : e ∈ nd'.edgesToNodes) :
    e = en ∨ ∃ nd ∈ nodes, e ∈ nd.edgesToNodes := by
  induction nodes generalizing i with
  | nil => cases h
  | cons nd rest ih =>
    cases i with
    | zero =>
      rcases List.mem_cons.mp h with rfl | hrest
      · rcases List.mem_append.mp he with h1 | h2
        · exact .inr ⟨nd, List.mem_cons_self nd rest, h1⟩
        · rcases List.mem_cons.mp h2 with rfl | h3
          · exact .inl rfl
          · cases h3
      · exact .inr ⟨nd', List.mem_cons_of_mem _ hrest, he⟩
    | succ i =>
      rcases List.mem_cons.mp h with rfl | hrest
      · exact .inr ⟨nd', List.mem_cons_self nd' rest, he⟩
      · rcases ih hrest with h1 | ⟨nd2, hnd2, he2⟩
        · exact .inl h1
        · exact .inr ⟨nd2, List.mem_cons_of_mem _ hnd2, he2⟩

theorem addEdgeRecord_weights {er : EdgeRecord} {g g' : Graph}
    (h : addEdgeRecord er g = .ok g')
    (hw : ∀ nd ∈ g.graphNodes, ∀ e ∈ nd.edgesToNodes, e.weight ≠ 0) :
    ∀ nd ∈ g'.graphNodes, ∀ e ∈ nd.edgesToNodes, e.weight ≠ 0 := by
  by_cases h1 : strFalsy er.source ∨ strFalsy er.target
  · simp [addEdgeRecord, h1] at h
  · cases hd : er.data with
    | none => simp [addEdgeRecord, h1, hd] at h
    | some w =>
      cases w with
      | nan => simp [addEdgeRecord, h1, hd] at h
      | num q =>
        by_cases h2 : q = 0
        · simp [addEdgeRecord, h1, hd, h2] at h
        · cases hsi : g.graphNodes.findIdx?
              (fun nd => nd.name == er.source.getD "") with
          | none => simp [addEdgeRecord, h1, hd, h2, hsi] at h
          | some si =>
            cases hti : g.graphNodes.findIdx?
                (fun nd => nd.name == er.target.getD "") with
            | none => simp [addEdgeRecord, h1, hd, h2, hsi, hti] at h
            | some ti =>
              simp [addEdgeRecord, h1, hd, h2, hsi, hti] at h
              rw [← h]
              intro nd' hnd' e he
              rcases pushEdgeAt_edges hnd' he with rfl | ⟨nd2, hnd2, he2⟩
              · exact h2
              · rcases pushEdgeAt_edges hnd2 he2 with rfl | ⟨nd3, hnd3, he3⟩
                · exact h2
                · exact hw nd3 hnd3 e he3

theorem foldl_addEdge_weights {g : Graph} :
    ∀ (edges : List EdgeRecord) (g0 : Graph),
      edges.foldl (fun acc er => acc.bind (addEdgeRecord er))
        (Except.ok g0 : Except Err Graph) = Except.ok g →
      (∀ nd ∈ g0.graphNodes, ∀ e ∈ nd.edgesToNodes, e.weight ≠ 0) →
      ∀ nd ∈ g.graphNodes, ∀ e ∈ nd.edgesToNodes, e.weight ≠ 0 := by
  intro edges
  induction edges with
  | nil =>
    intro g0 h hw
    injection h with h
    rw [← h]
    exact hw
  | cons er ers ih =>
    intro g0 h hw
    rw [List.foldl_cons] at h
    cases hadd : addEdgeRecord er g0 with
    | error err =>
      have hb : (Except.ok g0).bind (addEdgeRecord er) = .error err := hadd
      rw [hb, foldl_bind_error] at h
      cases h
    | ok g1 =>
      have hb : (Except.ok g0).bind (addEdgeRecord er) = .ok g1 := hadd
      rw [hb] at h
      exact ih g1 h (addEdgeRecord_weights hadd hw)

/-- Every edge weight stored by a successful load is nonzero — the only
weight values the loader rejects are the JS-falsy ones (`0` and `NaN`);
negative weights pass the check and are stored. -/
theorem parseGraphMl_weights {doc : GraphMlDoc} {g : Graph}
    (h : parseGraphMl doc = .ok g) :
    ∀ nd ∈ g.graphNodes, ∀ e ∈ nd.edgesToNodes, e.weight ≠ 0 := by
  unfold parseGraphMl at h
  by_cases h1 : doc.nodes.length < 2
  · simp [h1] at h
  · by_cases h2 : doc.edges.length = 0
    · simp [h1, h2] at h
    · simp only [h1, h2, if_false] at h
      refine foldl_addEdge_weights doc.edges ⟨doc.nodes.map fun id => ⟨id, []⟩⟩ h ?_
      intro nd hnd e he
      simp only [List.mem_map] at hnd
      rcases hnd with ⟨id, _, hid⟩
      rw [← hid] at he
      cases he

/-! ## Paths in undirected graphs -/

theorem indexPath_head_last {g : Graph} {s v : Nat} {p : List Nat} {c : ℤ}
    (h : IndexPath g s v p c) : p.head? = some s ∧ p.getLast? = some v := by
  induction h with
  | nil => exact ⟨rfl, rfl⟩
  | @cons u v' p' c' w hp he ih =>
    constructor
    · rw [List.head?_append_of_ne_nil]
      · exact ih.1
      · intro hc
        rw [hc] at ih
        exact absurd ih.1 (by simp)
    · exact List.getLast?_concat _

theorem indexPath_front {g : Graph} {a b t : Nat} {w : ℤ} {q : List Nat} {c : ℤ}
    (hab : EdgeIn g a b w) (hp : IndexPath g b t q c) :
    IndexPath g a t (a :: q) (c + w) := by
  induction hp with
  | nil =>
    have h := IndexPath.cons (IndexPath.nil (g := g) (s := a)) hab
    simpa using h
  | @cons u v p c' w' hp' he ih =>
    have h := IndexPath.cons ih he
    have harith : c' + w + w' = c' + w' + w := by ring
    rw [harith] at h
    simpa using h

/-- Reversing a path in a graph with reciprocal adjacency records. -/
theorem indexPath_reverse {g : Graph} (hsym : SymmetricAdj g) {s v : Nat}
    {p : List Nat} {c : ℤ} (h : IndexPath g s v p c) :
    IndexPath g v s p.reverse c := by
  induction h with
  | nil => simpa using IndexPath.nil (g := g) (s := s)
  | @cons u v' p' c' w hp he ih =>
    have hrev : EdgeIn g v' u w := hsym u v' w he
    have h := indexPath_front hrev ih
    simpa using h

/-- Executable reciprocal-adjacency check: every adjacency record has a
mirror record of the same weight on its target's list. -/
def SymmetricCheck (g : Graph) : Bool :=
  (List.range g.graphNodes.length).all fun i =>
    match g.graphNodes[i]? with
    | none => true
    | some nd => nd.edgesToNodes.all fun e =>
        match g.graphNodes[e.targetNode]? with
        | none => false
        | some nd' => nd'.edgesToNodes.contains ⟨i, e.weight⟩

theorem symmetricAdj_of_check {g : Graph} (h : SymmetricCheck g = true) :
    SymmetricAdj g := by
  rintro i j w ⟨nd, hnd, hm⟩
  have hi : i < g.graphNodes.length := edgeIn_lt ⟨nd, hnd, hm⟩
  unfold SymmetricCheck at h
  rw [List.all_eq_true] at h
  have h1 := h i (List.mem_range.mpr hi)
  rw [hnd] at h1
  simp only at h1
  rw [List.all_eq_true] at h1
  have h2 := h1 ⟨j, w⟩ hm
  cases h' : g.graphNodes[j]? with
  | none =>
    rw [h'] at h2
    cases h2
  | some nd' =>
    rw [h'] at h2
    refine ⟨nd', h', ?_⟩
    simpa using h2

theorem getElem?_some_lt {α} {l : List α} {i : Nat} {a : α} (h : l[i]? = some a) :
    i < l.length := by
  cases Nat.decLt i l.length with
  | isTrue h' => exact h'
  | isFalse h' =>
    rw [List.getElem?_eq_none (by omega)] at h
    cases h

theorem nodeName_of_findIdx? {g : Graph} {sN : String} {s : Nat}
    (hsi : g.graphNodes.findIdx? (fun nd => nd.name == sN) = some s) :
    nodeName g s = sN := by
  rcases (findIdx?_lt_length hsi).2 with ⟨a, ha, hpa⟩
  have hn : a.name = sN := by simpa using hpa
  simp [nodeName, ha, hn]

/-! ## The claims -/

/-- C8: on the Scenario-1 graph — nodes {A,B,C,D,E}, undirected edges
A-B(4), A-C(2), C-B(1), B-D(5), C-D(8), D-E(3), B-E(10) — the query from
A to E returns the node-name sequence [A, C, B, D, E] and total
distance 11. -/
theorem scenario1_query :
    dijkstra g8 "A" "E" =
      .ok (⟨["A", "C", "B", "D", "E"], ((11 : ℤ) : WithTop ℤ)⟩, ⟨[]⟩) := by
  decide

/-- C2 (code bug): on a graph whose node C is isolated, the query from A
to C does not fail with an explicit unreachable-target error after the
main loop — no such error exists in the code — but crashes inside path
reconstruction dereferencing the never-set predecessor of C (the
`TypeError` of `nodeToCheck.getName()` on `null`, modelled
`nullDereference`). -/
theorem unreachable_target_crashes :
    dijkstra gIso "A" "C" = .error .nullDereference := by
  decide

/-- C1 (counterexample): the query from A to E on the Scenario-1 graph
succeeds but returns a post-state graph whose node list is empty —
line 137 aliases `unvisited` to the graph's own node array and the loop
splices it empty — so the graph is changed by the query and the repeated
identical query throws instead of returning the same result. -/
theorem query_mutates_graph_counterexample :
    dijkstra g8 "A" "E" =
      .ok (⟨["A", "C", "B", "D", "E"], ((11 : ℤ) : WithTop ℤ)⟩, ⟨[]⟩) ∧
    g8.graphNodes ≠ [] ∧
    dijkstra (⟨[]⟩ : Graph) "A" "E" = .error .graphDoesNotContain := by
  decide

/-- C1 (amended): every successful query empties the queried graph's
node list (each node's adjacency list itself is untouched — the model
reuses the node objects — but the graph's list of nodes is consumed), so
the identical repeated query against the same instance fails to resolve
the start and target names instead of returning an identical result. -/
theorem dijkstra_consumes_graph {g : Graph} {sN tN : String} {sp : ShortestPath}
    {g' : Graph} (h : dijkstra g sN tN = .ok (sp, g')) :
    g'.graphNodes = [] ∧ dijkstra g' sN tN = .error .graphDoesNotContain :=
  dijkstra_post_graph h

theorem dijkstra_consumes_graph_witness :
    (⟨[]⟩ : Graph).graphNodes = [] ∧
      dijkstra (⟨[]⟩ : Graph) "A" "E" = .error .graphDoesNotContain :=
  @dijkstra_consumes_graph g8 "A" "E"
    ⟨["A", "C", "B", "D", "E"], ((11 : ℤ) : WithTop ℤ)⟩ ⟨[]⟩ (by decide)

/-- C3 (counterexample): a record whose weight payload parses to −5 — a
number that is not strictly positive — loads successfully (the check
`if (!edgeWeight)` rejects only the falsy numbers 0 and NaN), and the
loaded graph stores the weight −5. -/
theorem negative_weight_loads :
    parseGraphMl docNeg =
      .ok ⟨[⟨"A", [⟨1, -5⟩]⟩, ⟨"B", [⟨0, -5⟩]⟩]⟩ ∧
    ¬ ((0 : ℤ) < -5) := by
  decide

/-- C3 (amended): loading fails with the invalid-weight error exactly on
the JS-falsy parse results (0 and NaN); every other value — negative
ones included — is accepted, so the weights stored in a successfully
loaded graph are only guaranteed to be nonzero, not strictly positive. -/
theorem loaded_weights_nonzero {doc : GraphMlDoc} {g : Graph}
    (h : parseGraphMl doc = .ok g) :
    ∀ nd ∈ g.graphNodes, ∀ e ∈ nd.edgesToNodes, e.weight ≠ 0 :=
  parseGraphMl_weights h

theorem loaded_weights_nonzero_witness :
    ((⟨1, -5⟩ : EdgeToNode)).weight ≠ 0 :=
  @loaded_weights_nonzero docNeg ⟨[⟨"A", [⟨1, -5⟩]⟩, ⟨"B", [⟨0, -5⟩]⟩]⟩ (by decide)
    ⟨"A", [⟨1, -5⟩]⟩ (by decide) ⟨1, -5⟩ (by decide)

/-- C4 (counterexample): a document whose node list holds the identifier
"A" twice loads successfully — the loader has no duplicate check — and
the loaded graph contains two distinct nodes with the same name. -/
theorem duplicate_nodes_load :
    parseGraphMl docDup =
      .ok ⟨[⟨"A", [⟨0, 1⟩, ⟨0, 1⟩]⟩, ⟨"A", []⟩]⟩ ∧
    ¬ ((⟨[⟨"A", [⟨0, 1⟩, ⟨0, 1⟩]⟩, ⟨"A", []⟩]⟩ : Graph).graphNodes.map
        (·.name)).Nodup := by
  decide

/-- C4 (amended): the loader appends one node per record, in document
order and with no duplicate-identifier check, so the loaded graph's node
names are exactly the document's node identifiers — duplicates
included — and no duplicate-node failure exists. -/
theorem loader_keeps_all_records {doc : GraphMlDoc} {g : Graph}
    (h : parseGraphMl doc = .ok g) :
    g.graphNodes.map (·.name) = doc.nodes :=
  parseGraphMl_node_names h

theorem loader_keeps_all_records_witness :
    (⟨[⟨"A", [⟨0, 1⟩, ⟨0, 1⟩]⟩, ⟨"A", []⟩]⟩ : Graph).graphNodes.map (·.name) =
      docDup.nodes :=
  @loader_keeps_all_records docDup ⟨[⟨"A", [⟨0, 1⟩, ⟨0, 1⟩]⟩, ⟨"A", []⟩]⟩
    (by decide)

/-- C6: whenever the table is well formed (one entry per node, in graph
order) and the unvisited list holds graph nodes, the frontier selection
succeeds and returns an unvisited node whose table distance is minimal
among all unvisited nodes; among equal minima it returns the one
earliest in the graph's node ordering (every unvisited node with a
smaller index has a strictly larger distance). -/
theorem findSmallest_first_min {n : Nat} {table : List LookupTableEntry}
    (twf : TableWF n table) {unvisited : List Nat}
    (hsub : ∀ v ∈ unvisited, v < n) (hne : unvisited ≠ []) :
    ∃ u, findNodeWithSmallestKnownDistance table unvisited = .ok u ∧
      u ∈ unvisited ∧
      (∀ v ∈ unvisited, distT table u ≤ distT table v) ∧
      (∀ v ∈ unvisited, v < u → distT table u < distT table v) :=
  findSmallest_spec twf hsub hne

theorem findSmallest_first_min_witness :
    TableWF 5 (initLookupTable g8 0) ∧
      ∃ u, findNodeWithSmallestKnownDistance (initLookupTable g8 0)
          [0, 1, 2, 3, 4] = .ok u ∧
        u ∈ [0, 1, 2, 3, 4] ∧
        (∀ v ∈ [0, 1, 2, 3, 4],
          distT (initLookupTable g8 0) u ≤ distT (initLookupTable g8 0) v) ∧
        (∀ v ∈ [0, 1, 2, 3, 4], v < u →
          distT (initLookupTable g8 0) u < distT (initLookupTable g8 0) v) :=
  ⟨by decide, findSmallest_first_min (n := 5) (by decide) (by decide) (by decide)⟩

/-- C9: a query whose start and target names are the same resolving name
returns the single-element path holding that node's name, with total
distance 0. -/
theorem dijkstra_self_query {g : Graph} (hg : GraphWF g) (hpos : PosWeights g)
    {sN : String} {s : Nat}
    (hsi : g.graphNodes.findIdx? (fun nd => nd.name == sN) = some s) :
    dijkstra g sN sN = .ok (⟨[sN], 0⟩, ⟨[]⟩) := by
  have hs := (findIdx?_lt_length hsi).1
  rw [dijkstra_eq_findSPB hsi hsi]
  rcases dijkstraLoop_spec hg hpos (g.graphNodes.length + 1) _ _ _ (loopInv_init g hs)
    (by simp) with ⟨tl, vis, hloop, inv, _⟩
  have hrew : rewindPath g tl s (g.graphNodes.length + 1) (some s) [] = .ok [] :=
    rewindPath_start
  obtain ⟨snd, hsnd⟩ : ∃ nd, g.graphNodes[s]? = some nd :=
    ⟨g.graphNodes[s], List.getElem?_eq_getElem hs⟩
  rcases inv.twf.entry_at hs with ⟨te, hte, _⟩
  rw [findSPB_unfold ⟨hs, hs⟩ hloop hrew hsnd hte]
  have h1 : te.shortestDistanceToTargetNode = 0 := by
    rw [← distT_of_entry hte]
    exact inv.startDist
  have h2 : snd.name = sN := by
    have h3 : snd.name = nodeName g s := by simp [nodeName, hsnd]
    rw [h3, nodeName_of_findIdx? hsi]
  rw [h1, h2]
  simp

theorem dijkstra_self_query_witness :
    dijkstra g8 "A" "A" = .ok (⟨["A"], 0⟩, ⟨[]⟩) :=
  dijkstra_self_query (g := g8) (s := 0) (by decide) (by decide) (by decide)

/-- C5: for every successful query on a well-formed, positively weighted
graph: the returned name sequence is the image of an actual index path
from the resolved start to the resolved target (consecutive nodes joined
by adjacency records), the returned total distance is that path's weight
sum `c` and also the target's value in the final distance table, and the
sequence starts at the start node's name and ends at the target node's
name. -/
theorem dijkstra_path_sum {g : Graph} (hg : GraphWF g) (hpos : PosWeights g)
    {sN tN : String} {sp : ShortestPath} {g' : Graph}
    (h : dijkstra g sN tN = .ok (sp, g')) :
    ∃ (s t : Nat) (p : List Nat) (c : ℤ) (tl : List LookupTableEntry)
      (vis : List Nat),
      g.graphNodes.findIdx? (fun nd => nd.name == sN) = some s ∧
      g.graphNodes.findIdx? (fun nd => nd.name == tN) = some t ∧
      IndexPath g s t p c ∧
      sp.nodeNames = p.map (nodeName g) ∧
      sp.shortestDistance = (c : WithTop ℤ) ∧
      p.head? = some s ∧ p.getLast? = some t ∧
      nodeName g s = sN ∧ nodeName g t = tN ∧
      dijkstraLoop g g.graphNodes.length (g.graphNodes.length + 1)
        (initLookupTable g s) (List.range g.graphNodes.length) [] =
        .ok (tl, [], vis) ∧
      distT tl t = (c : WithTop ℤ) := by
  cases hsi : g.graphNodes.findIdx? (fun nd => nd.name == sN) with
  | none => simp [dijkstra, hsi] at h
  | some s =>
    cases hti : g.graphNodes.findIdx? (fun nd => nd.name == tN) with
    | none => simp [dijkstra, hsi, hti] at h
    | some t =>
      rw [dijkstra_eq_findSPB hsi hti] at h
      have hs := (findIdx?_lt_length hsi).1
      have ht := (findIdx?_lt_length hti).1
      by_cases hreach : Reaches g s t
      · rcases findSPB_spec hg hpos hs ht hreach with
          ⟨q, c, tl, vis, hloop, inv, hout, hpath, hdist⟩
        rw [hout] at h
        injection h with h
        have hsp : sp = ⟨(s :: q.reverse).map (nodeName g), (c : WithTop ℤ)⟩ :=
          (congrArg Prod.fst h).symm
        rcases indexPath_head_last hpath with ⟨hh, hl⟩
        exact ⟨s, t, s :: q.reverse, c, tl, vis, rfl, rfl, hpath,
          by rw [hsp], by rw [hsp], hh, hl, nodeName_of_findIdx? hsi,
          nodeName_of_findIdx? hti, hloop, hdist⟩
      · by_cases hts : t = s
        · subst hts
          exact absurd ⟨[t], 0, IndexPath.nil⟩ hreach
        · rw [findSPB_crash hg hpos hs ht hts hreach] at h
          cases h

theorem dijkstra_path_sum_witness :
    GraphWF g8 ∧ PosWeights g8 ∧
      ∃ (s t : Nat) (p : List Nat) (c : ℤ) (tl : List LookupTableEntry)
        (vis : List Nat),
        g8.graphNodes.findIdx? (fun nd => nd.name == "A") = some s ∧
        g8.graphNodes.findIdx? (fun nd => nd.name == "E") = some t ∧
        IndexPath g8 s t p c ∧
        (⟨["A", "C", "B", "D", "E"],
          ((11 : ℤ) : WithTop ℤ)⟩ : ShortestPath).nodeNames = p.map (nodeName g8) ∧
        (⟨["A", "C", "B", "D", "E"],
          ((11 : ℤ) : WithTop ℤ)⟩ : ShortestPath).shortestDistance =
          (c : WithTop ℤ) ∧
        p.head? = some s ∧ p.getLast? = some t ∧
        nodeName g8 s = "A" ∧ nodeName g8 t = "E" ∧
        dijkstraLoop g8 g8.graphNodes.length (g8.graphNodes.length + 1)
          (initLookupTable g8 s) (List.range g8.graphNodes.length) [] =
          .ok (tl, [], vis) ∧
        distT tl t = (c : WithTop ℤ) :=
  ⟨by decide, by decide,
    @dijkstra_path_sum g8 (by decide) (by decide) "A" "E"
      ⟨["A", "C", "B", "D", "E"], ((11 : ℤ) : WithTop ℤ)⟩ ⟨[]⟩ (by decide)⟩

/-- C10: the main loop pops every node of the graph, reachable or not —
the visited list ends as a permutation of all node indices and the
(aliased) unvisited list ends empty; relaxing the adjacency list of a
node whose recorded distance is `Infinity` changes no table entry
(`Infinity` plus a finite weight is `Infinity`, never strictly smaller
than any entry); after the loop every node unreachable from the start
still has distance `Infinity` and no predecessor, while every reachable
non-start node has a finite distance and a set predecessor. -/
theorem loop_reachability_classification {g : Graph} (hg : GraphWF g)
    (hpos : PosWeights g) {s : Nat} (hs : s < g.graphNodes.length)
    {tl : List LookupTableEntry} {unv vis : List Nat}
    (hrun : dijkstraLoop g g.graphNodes.length (g.graphNodes.length + 1)
      (initLookupTable g s) (List.range g.graphNodes.length) [] =
      .ok (tl, unv, vis)) :
    unv = [] ∧ vis.Perm (List.range g.graphNodes.length) ∧
    (∀ (tb : List LookupTableEntry) (u : Nat) (nd : GraphNode),
      TableWF g.graphNodes.length tb → g.graphNodes[u]? = some nd →
      distT tb u = ⊤ → checkNeighboringNodes tb u nd.edgesToNodes = .ok tb) ∧
    (∀ v, v < g.graphNodes.length → ¬ Reaches g s v →
      distT tl v = ⊤ ∧ prevT tl v = none) ∧
    (∀ v, v < g.graphNodes.length → v ≠ s → Reaches g s v →
      distT tl v ≠ ⊤ ∧ (prevT tl v).isSome) := by
  rcases dijkstraLoop_spec hg hpos (g.graphNodes.length + 1) _ _ _
    (loopInv_init g hs) (by simp) with ⟨tl', vis', hloop, inv, hperm⟩
  rw [hloop] at hrun
  injection hrun with hrun
  simp only [Prod.mk.injEq] at hrun
  obtain ⟨h1, h2, h3⟩ := hrun
  subst h1
  subst h3
  refine ⟨h2.symm, hperm, ?_, ?_, ?_⟩
  · intro tb u nd htwf hnd htop
    rw [checkNeighboringNodes_eq]
    exact relaxEdges_noop_of_top (getElem?_some_lt hnd)
      (fun e he => hg nd (List.getElem?_mem hnd) e he) htwf htop
  · intro v hv hunreach
    exact final_unreach_top inv hunreach
  · intro v hv hvs hreach
    refine ⟨final_reach_finite inv hreach, ?_⟩
    rcases inv.finite_to v (final_reach_finite inv hreach) with rfl | hsome
    · exact absurd rfl hvs
    · exact hsome

/-- The final lookup table of the query on `gIso` from A. -/
def tlIso : List LookupTableEntry :=
  [⟨0, ((0 : ℤ) : WithTop ℤ), none⟩, ⟨1, ((1 : ℤ) : WithTop ℤ), some 0⟩,
   ⟨2, ⊤, none⟩]

theorem loop_reachability_classification_witness :
    ([] : List Nat) = [] ∧
    ([0, 1, 2] : List Nat).Perm (List.range gIso.graphNodes.length) ∧
    (∀ (tb : List LookupTableEntry) (u : Nat) (nd : GraphNode),
      TableWF gIso.graphNodes.length tb → gIso.graphNodes[u]? = some nd →
      distT tb u = ⊤ → checkNeighboringNodes tb u nd.edgesToNodes = .ok tb) ∧
    (∀ v, v < gIso.graphNodes.length → ¬ Reaches gIso 0 v →
      distT tlIso v = ⊤ ∧ prevT tlIso v = none) ∧
    (∀ v, v < gIso.graphNodes.length → v ≠ 0 → Reaches gIso 0 v →
      distT tlIso v ≠ ⊤ ∧ (prevT tlIso v).isSome) :=
  @loop_reachability_classification gIso (by decide) (by decide) 0 (by decide)
    tlIso [] [0, 1, 2] (by decide)

/-- C7 (counterexample): on the graph with nodes [A,B,C,E] and edges
A-B(1), A-C(2), B-E(2), C-E(1) there are two tied shortest routes
between A and E; the A-to-E query picks [A, B, E] while the E-to-A query
picks [E, C, A], so the two returned sequences are not reverses of each
other even though both queries succeed with distance 3. -/
theorem symm_paths_counterexample :
    dijkstra gTie "A" "E" =
      .ok (⟨["A", "B", "E"], ((3 : ℤ) : WithTop ℤ)⟩, ⟨[]⟩) ∧
    dijkstra gTie "E" "A" =
      .ok (⟨["E", "C", "A"], ((3 : ℤ) : WithTop ℤ)⟩, ⟨[]⟩) ∧
    (["A", "B", "E"] : List String).reverse ≠ ["E", "C", "A"] := by
  decide

/-- C7 (amended): on a well-formed, positively weighted graph with
reciprocal adjacency records, the queries in the two directions between
connected resolved names both succeed and return equal total distances;
the returned sequences need not be reverses of each other. -/
theorem dijkstra_symm_distance {g : Graph} (hg : GraphWF g) (hpos : PosWeights g)
    (hsym : SymmetricAdj g) {sN tN : String} {s t : Nat}
    (hsi : g.graphNodes.findIdx? (fun nd => nd.name == sN) = some s)
    (hti : g.graphNodes.findIdx? (fun nd => nd.name == tN) = some t)
    (hreach : Reaches g s t) :
    ∃ (sp₁ sp₂ : ShortestPath) (g₁ g₂ : Graph),
      dijkstra g sN tN = .ok (sp₁, g₁) ∧ dijkstra g tN sN = .ok (sp₂, g₂) ∧
      sp₁.shortestDistance = sp₂.shortestDistance := by
  have hs := (findIdx?_lt_length hsi).1
  have ht := (findIdx?_lt_length hti).1
  have hreach' : Reaches g t s := by
    rcases hreach with ⟨p, c, hp⟩
    exact ⟨p.reverse, c, indexPath_reverse hsym hp⟩
  rcases findSPB_spec hg hpos hs ht hreach with
    ⟨q₁, c₁, tl₁, vis₁, hloop₁, inv₁, hout₁, hpath₁, hdist₁⟩
  rcases findSPB_spec hg hpos ht hs hreach' with
    ⟨q₂, c₂, tl₂, vis₂, hloop₂, inv₂, hout₂, hpath₂, hdist₂⟩
  have hub₁ : distT tl₁ t ≤ (c₂ : WithTop ℤ) :=
    final_upper_bound inv₁ (by simpa using indexPath_reverse hsym hpath₂)
  have hub₂ : distT tl₂ s ≤ (c₁ : WithTop ℤ) :=
    final_upper_bound inv₂ (by simpa using indexPath_reverse hsym hpath₁)
  have hc₁ : c₁ ≤ c₂ := by
    rw [hdist₁] at hub₁
    exact_mod_cast hub₁
  have hc₂ : c₂ ≤ c₁ := by
    rw [hdist₂] at hub₂
    exact_mod_cast hub₂
  have hceq : c₁ = c₂ := le_antisymm hc₁ hc₂
  refine ⟨⟨(s :: q₁.reverse).map (nodeName g), (c₁ : WithTop ℤ)⟩,
    ⟨(t :: q₂.reverse).map (nodeName g), (c₂ : WithTop ℤ)⟩, ⟨[]⟩, ⟨[]⟩, ?_, ?_, ?_⟩
  · rw [dijkstra_eq_findSPB hsi hti]
    exact hout₁
  · rw [dijkstra_eq_findSPB hti hsi]
    exact hout₂
  · simp [hceq]

theorem gTie_edge01 : EdgeIn gTie 0 1 1 :=
  ⟨⟨"A", [⟨1, 1⟩, ⟨2, 2⟩]⟩, by decide, by decide⟩

theorem gTie_edge13 : EdgeIn gTie 1 3 2 :=
  ⟨⟨"B", [⟨0, 1⟩, ⟨3, 2⟩]⟩, by decide, by decide⟩

theorem dijkstra_symm_distance_witness :
    ∃ (sp₁ sp₂ : ShortestPath) (g₁ g₂ : Graph),
      dijkstra gTie "A" "E" = .ok (sp₁, g₁) ∧
      dijkstra gTie "E" "A" = .ok (sp₂, g₂) ∧
      sp₁.shortestDistance = sp₂.shortestDistance :=
  dijkstra_symm_distance (g := gTie) (s := 0) (t := 3)
    (by decide) (by decide) (symmetricAdj_of_check (by decide))
    (by decide) (by decide)
    ⟨_, _, IndexPath.cons (IndexPath.cons IndexPath.nil gTie_edge01) gTie_edge13⟩
